import Mathlib

/-!
Polynomial engine of Kyber-768 (`poly.c`).

A shallow embedding of the routines of
`src/kem/kyber/pqclean_kyber768_clean/poly.c` together with machine-checked
statements about serialisation, compression and message encoding.

Conventions of the embedding.

* A C array reached through a pointer is a `List`; reading or writing a cell
  outside the list is undefined behaviour in C and is `none` here, so every
  routine returns an `Option`.
* `unsigned char`, `uint8_t`, `uint16_t` and `uint32_t` values are natural
  numbers, reduced modulo `2^8`, `2^16`, `2^32` wherever C converts to that
  type; `int` and `int16_t` values are integers, and a store into an `int16_t`
  cell wraps to the signed 16-bit range.
* A routine that mutates its argument in place returns the new content of that
  argument next to its output.
-/

namespace Kyber

/-! ## Constants -/

/-- Modelled from the spec: `params.h` is not among the sources; the spec
fixes the ring degree at 256. -/
abbrev KYBER_N : Nat := 256

/-- Modelled from the spec: `params.h` is not among the sources; the spec
fixes the modulus at q = 3329. -/
abbrev KYBER_Q : Nat := 3329

/-- Modelled from the spec: `params.h` is not among the sources; the spec
fixes messages and seeds at 32 bytes. -/
abbrev KYBER_SYMBYTES : Nat := 32

/-- Modelled from the spec: `params.h` is not among the sources; the spec
fixes the serialised polynomial at 384 bytes. -/
abbrev KYBER_POLYBYTES : Nat := 384

/-- Modelled from the spec: `params.h` is not among the sources; the spec
fixes the compressed polynomial at 128 bytes. -/
abbrev KYBER_POLYCOMPRESSEDBYTES : Nat := 128

/-! ## Machine integers and memory -/

/-- Conversion of an integer to `uint8_t` / `unsigned char`. -/
def toU8 (x : Nat) : Nat := x % 2 ^ 8

/-- Conversion of an integer to `uint16_t`. -/
def toU16 (x : Int) : Nat := (x % 2 ^ 16).toNat

/-- Conversion of an integer to `uint32_t`. -/
def toU32 (x : Int) : Nat := (x % 2 ^ 32).toNat

/-- Conversion of an integer to `int16_t` (two's complement wrap). -/
def toI16 (x : Int) : Int := Int.bmod x (2 ^ 16)

/-- Read of cell `i` of a C array; `none` outside the array. -/
def load {α : Type} (xs : List α) (i : Nat) : Option α := xs[i]?

/-- Write of cell `i` of a C array; `none` outside the array. -/
def store {α : Type} (xs : List α) (i : Nat) (v : α) : Option (List α) :=
  if i < xs.length then some (xs.set i v) else none

/-- Division by a divisor that must not be zero; `none` on a zero divisor. -/
def udiv (x d : Nat) : Option Nat := if d = 0 then none else some (x / d)

/-- Signed division of C (`/` on `int`, truncating); `none` on a zero divisor. -/
def sdiv (x d : Int) : Option Int := if d = 0 then none else some (Int.tdiv x d)

/-- The loop `for (i = 0; i < n; i++) body`, threading the state and stopping
with `none` as soon as the body does. -/
def forLoop {σ : Type} (body : Nat → σ → Option σ) : Nat → σ → Option σ
  | 0, s => some s
  | n + 1, s => (forLoop body n s).bind (body n)

/-- The loop `for (i = 0; i < hi; i += step) body`. -/
def forStep {σ : Type} (hi step : Nat) (body : Nat → σ → Option σ) (s : σ) : Option σ :=
  forLoop (fun n st => body (step * n) st) ((hi + step - 1) / step) s

/-! ## Polynomials -/

/-- Modelled from the spec: `poly.h` is not among the sources; the spec
describes a polynomial as an ordered sequence of 256 signed 16-bit
coefficients. The array is held as a list; its length and the range of its
cells are stated where they are needed. -/
structure poly where
  coeffs : List Int
deriving DecidableEq

/-- Modelled from the spec: `reduce.c` is not among the sources; the spec
describes csubq as one conditional subtraction of q, taking and returning a
signed 16-bit value, meant for inputs in [0, 2q). -/
def csubq (a : Int) : Int := if (KYBER_Q : Int) ≤ a then a - KYBER_Q else a

/-- Embedding of `PQCLEAN_KYBER768_CLEAN_poly_csubq`: conditional subtraction of q on every
coefficient, in place. -/
def poly_csubq (r : poly) : Option poly :=
  forLoop (fun i r => do
    let c ← load r.coeffs i
    let cs ← store r.coeffs i (csubq c)
    pure ⟨cs⟩) KYBER_N r

/-- Embedding of `PQCLEAN_KYBER768_CLEAN_poly_tobytes`: returns the byte array `r` after the
call and the polynomial `a` after the call (it is reduced in place). -/
def poly_tobytes (r : List Nat) (a : poly) : Option (List Nat × poly) := do
  let a ← poly_csubq a
  let r ← forLoop (fun i r => do
    let t0 := toU16 (← load a.coeffs (2 * i))
    let t1 := toU16 (← load a.coeffs (2 * i + 1))
    let r ← store r (3 * i) (toU8 (t0 &&& 0xff))
    let r ← store r (3 * i + 1) (toU8 ((t0 >>> 8) ||| ((t1 &&& 0xf) <<< 4)))
    store r (3 * i + 2) (toU8 ((t1 >>> 4) &&& 0xff))) (KYBER_N / 2) r
  pure (r, a)

/-- Embedding of `PQCLEAN_KYBER768_CLEAN_poly_frombytes`: returns the polynomial `r` after
the call. -/
def poly_frombytes (r : poly) (a : List Nat) : Option poly :=
  forLoop (fun i r => do
    let x0 ← load a (3 * i)
    let x1 ← load a (3 * i + 1)
    let cs ← store r.coeffs (2 * i) (toI16 ((x0 ||| ((toU16 x1 &&& 0x0f) <<< 8) : Nat)))
    let y1 ← load a (3 * i + 1)
    let y2 ← load a (3 * i + 2)
    let cs ← store cs (2 * i + 1) (toI16 (((y1 >>> 4) ||| ((toU16 y2 &&& 0xff) <<< 4) : Nat)))
    pure ⟨cs⟩) (KYBER_N / 2) r

/-- Embedding of `PQCLEAN_KYBER768_CLEAN_poly_compress`: returns the byte array `r` after
the call and the polynomial `a` after the call (it is reduced in place). The
loop state is the output array, the scratch array `t` and the cursor `k`. The
array `t` is uninitialised in C; it starts as zeros here, and each of its cells
is written before it is read. -/
def poly_compress (r : List Nat) (a : poly) : Option (List Nat × poly) := do
  let a ← poly_csubq a
  let (r, _, _) ← forStep KYBER_N 8 (fun i (st : List Nat × List Nat × Nat) => do
    let (r, t, k) := st
    let t ← forLoop (fun j t => do
      let c ← load a.coeffs (i + j)
      let d ← udiv (((toU32 c <<< 4) % 2 ^ 32 + KYBER_Q / 2) % 2 ^ 32) KYBER_Q
      store t j (toU8 (d &&& 15))) 8 t
    let r ← (do store r k (toU8 ((← load t 0) ||| ((← load t 1) <<< 4))))
    let r ← (do store r (k + 1) (toU8 ((← load t 2) ||| ((← load t 3) <<< 4))))
    let r ← (do store r (k + 2) (toU8 ((← load t 4) ||| ((← load t 5) <<< 4))))
    let r ← (do store r (k + 3) (toU8 ((← load t 6) ||| ((← load t 7) <<< 4))))
    pure (r, t, k + 4)) (r, List.replicate 8 0, 0)
  pure (r, a)

/-- Embedding of `PQCLEAN_KYBER768_CLEAN_poly_decompress`: returns the polynomial `r` after
the call. The loop state is the polynomial and the offset by which the pointer
`a` has been advanced. -/
def poly_decompress (r : poly) (a : List Nat) : Option poly := do
  let (r, _) ← forStep KYBER_N 8 (fun i (st : poly × Nat) => do
    let (r, off) := st
    let cs ← (do store r.coeffs (i + 0) (toI16 (Int.ofNat ((((← load a (off + 0)) &&& 15) * KYBER_Q + 8) >>> 4))))
    let cs ← (do store cs (i + 1) (toI16 (Int.ofNat ((((← load a (off + 0)) >>> 4) * KYBER_Q + 8) >>> 4))))
    let cs ← (do store cs (i + 2) (toI16 (Int.ofNat ((((← load a (off + 1)) &&& 15) * KYBER_Q + 8) >>> 4))))
    let cs ← (do store cs (i + 3) (toI16 (Int.ofNat ((((← load a (off + 1)) >>> 4) * KYBER_Q + 8) >>> 4))))
    let cs ← (do store cs (i + 4) (toI16 (Int.ofNat ((((← load a (off + 2)) &&& 15) * KYBER_Q + 8) >>> 4))))
    let cs ← (do store cs (i + 5) (toI16 (Int.ofNat ((((← load a (off + 2)) >>> 4) * KYBER_Q + 8) >>> 4))))
    let cs ← (do store cs (i + 6) (toI16 (Int.ofNat ((((← load a (off + 3)) &&& 15) * KYBER_Q + 8) >>> 4))))
    let cs ← (do store cs (i + 7) (toI16 (Int.ofNat ((((← load a (off + 3)) >>> 4) * KYBER_Q + 8) >>> 4))))
    pure (⟨cs⟩, off + 4)) (r, 0)
  pure r

/-- Embedding of `PQCLEAN_KYBER768_CLEAN_poly_add`: coefficient-wise sum stored into `r`,
no reduction. -/
def poly_add (r a b : poly) : Option poly :=
  forLoop (fun i r => do
    let x ← load a.coeffs i
    let y ← load b.coeffs i
    let cs ← store r.coeffs i (toI16 (x + y))
    pure ⟨cs⟩) KYBER_N r

/-- Embedding of `PQCLEAN_KYBER768_CLEAN_poly_frommsg`: returns the polynomial `r` after the
call. `mask` is the `uint16_t` that is all ones or all zeros. -/
def poly_frommsg (r : poly) (msg : List Nat) : Option poly :=
  forLoop (fun i r =>
    forLoop (fun j r => do
      let mask := toU16 (-(((← load msg i) >>> j) &&& 1 : Nat))
      let cs ← store r.coeffs (8 * i + j) (toI16 ((mask &&& ((KYBER_Q + 1) / 2) : Nat)))
      pure ⟨cs⟩) 8 r) KYBER_SYMBYTES r

/-- Embedding of `PQCLEAN_KYBER768_CLEAN_poly_tomsg`: returns the message array after the
call and the polynomial `a` after the call (it is reduced in place). The
coefficient is promoted to `int`, so the shift, the sum, the division and the
mask are signed: `c << 1` is `c * 2 ^ 1` (no overflow in 32 bits), `/` truncates
towards zero and `& 1` is the two's complement mask. -/
def poly_tomsg (msg : List Nat) (a : poly) : Option (List Nat × poly) := do
  let a ← poly_csubq a
  let msg ← forLoop (fun i msg => do
    let msg ← store msg i 0
    forLoop (fun j msg => do
      let c ← load a.coeffs (8 * i + j)
      let d ← sdiv (c * 2 ^ 1 + (KYBER_Q / 2 : Nat)) KYBER_Q
      let t := toU16 (Int.land d 1)
      store msg i (toU8 ((← load msg i) ||| (t <<< j)))) 8 msg) KYBER_SYMBYTES msg
  pure (msg, a)


/-- Embedding of `PQCLEAN_KYBER768_CLEAN_poly_reduce`: Barrett reduction of every
coefficient, in place. The primitive `barrett_reduce` lives in `reduce.c`,
which is not among the sources, and is a parameter. -/
def poly_reduce (barrett_reduce : Int → Int) (r : poly) : Option poly :=
  forLoop (fun i r => do
    let c ← load r.coeffs i
    let cs ← store r.coeffs i (barrett_reduce c)
    pure ⟨cs⟩) KYBER_N r

/-- Embedding of `PQCLEAN_KYBER768_CLEAN_poly_ntt`: the forward transform on the
coefficient array, then `poly_reduce`. The transform `ntt` lives in `ntt.c`,
which is not among the sources, and is a parameter acting on the whole
array. -/
def poly_ntt (ntt : List Int → List Int) (barrett_reduce : Int → Int) (r : poly) :
    Option poly := do
  let r : poly := ⟨ntt r.coeffs⟩
  poly_reduce barrett_reduce r

/-- Embedding of `PQCLEAN_KYBER768_CLEAN_poly_invntt`: the inverse transform on
the coefficient array and nothing else. The transform `invntt` lives in
`ntt.c`, which is not among the sources, and is a parameter acting on the
whole array. -/
def poly_invntt (invntt : List Int → List Int) (r : poly) : Option poly :=
  pure ⟨invntt r.coeffs⟩

/-- Embedding of `PQCLEAN_KYBER768_CLEAN_poly_basemul`: for each of the 64 blocks
two calls of the base multiplier, the second with the negated twiddle. The
base multiplier and the table `zetas` live in `ntt.c`, which is not among the
sources, and are parameters: `basemul a0 a1 b0 b1 zeta` stands for a call that
reads `a[0]`, `a[1]`, `b[0]`, `b[1]` and returns the values it writes to `r[0]`
and `r[1]`. The negated twiddle is converted back to `int16_t`. -/
def poly_basemul (basemul : Int → Int → Int → Int → Int → Int × Int) (zetas : List Int)
    (r a b : poly) : Option poly :=
  forLoop (fun i r => do
    let cs ← (do
      let a0 ← load a.coeffs (4 * i)
      let a1 ← load a.coeffs (4 * i + 1)
      let b0 ← load b.coeffs (4 * i)
      let b1 ← load b.coeffs (4 * i + 1)
      let out := basemul a0 a1 b0 b1 (← load zetas (64 + i))
      let cs ← store r.coeffs (4 * i) out.1
      store cs (4 * i + 1) out.2)
    let cs ← (do
      let a0 ← load a.coeffs (4 * i + 2)
      let a1 ← load a.coeffs (4 * i + 2 + 1)
      let b0 ← load b.coeffs (4 * i + 2)
      let b1 ← load b.coeffs (4 * i + 2 + 1)
      let out := basemul a0 a1 b0 b1 (toI16 (-(← load zetas (64 + i))))
      let cs ← store cs (4 * i + 2) out.1
      store cs (4 * i + 2 + 1) out.2)
    pure ⟨cs⟩) (KYBER_N / 4) r

/-- Embedding of `PQCLEAN_KYBER768_CLEAN_poly_frommont`: every coefficient is
multiplied by `f = (1ULL << 32) % KYBER_Q`, held in an `int16_t`, and passed to
the Montgomery reduction. The product of an `int16_t` coefficient with `f`
fits 32 bits. The primitive `montgomery_reduce` lives in `reduce.c`, which is
not among the sources, and is a parameter. -/
def poly_frommont (montgomery_reduce : Int → Int) (r : poly) : Option poly :=
  let f : Int := toI16 (((1 <<< 32) % KYBER_Q : Nat) : Int)
  forLoop (fun i r => do
    let c ← load r.coeffs i
    let cs ← store r.coeffs i (montgomery_reduce (c * f))
    pure ⟨cs⟩) KYBER_N r

/-- The forward transform in the words of the spec: delegate to the Transform
Engine, then apply Barrett reduction to every coefficient. -/
def forward_ntt_spec (ntt : List Int → List Int) (barrett_reduce : Int → Int) (p : poly) :
    poly :=
  ⟨(ntt p.coeffs).map barrett_reduce⟩

/-- The inverse transform in the words of the spec: delegate to the Transform
Engine, with no extra reduction pass. -/
def inverse_ntt_spec (invntt : List Int → List Int) (p : poly) : poly :=
  ⟨invntt p.coeffs⟩

/-! ## Memory and loop rules -/

theorem load_of_eq {α : Type} {xs : List α} {i : Nat} {v : α} (h : xs[i]? = some v) :
    load xs i = some v := h

theorem store_of_lt {α : Type} {xs : List α} {i : Nat} (v : α) (h : i < xs.length) :
    store xs i v = some (xs.set i v) := by
  simp [store, h]

theorem forLoop_inv {σ : Type} (body : Nat → σ → Option σ) (P : Nat → σ → Prop)
    (n : Nat) (s : σ) (h0 : P 0 s)
    (hstep : ∀ k st, k < n → P k st → ∃ st', body k st = some st' ∧ P (k + 1) st') :
    ∃ s', forLoop body n s = some s' ∧ P n s' := by
  induction n with
  | zero => exact ⟨s, rfl, h0⟩
  | succ m ih =>
    obtain ⟨s1, hs1, hP1⟩ := ih (fun k st hk hP => hstep k st (Nat.lt_succ_of_lt hk) hP)
    obtain ⟨s2, hs2, hP2⟩ := hstep m s1 (Nat.lt_succ_self m) hP1
    exact ⟨s2, by simp [forLoop, hs1, hs2], hP2⟩

/-- A loop whose `k`-th iteration overwrites the block of `m` cells starting at
`m * k` of the array `proj st` with the values of `f` fills the first `m * n`
cells with `f` and leaves the others alone. -/
theorem forLoop_fill {σ β : Type} (proj : σ → List β) (I : Nat → σ → Prop)
    (body : Nat → σ → Option σ) (m L n : Nat) (f : Nat → β) (s0 : σ)
    (hI0 : I 0 s0) (hL : (proj s0).length = L)
    (hstep : ∀ k st, k < n → I k st → (proj st).length = L →
      (∀ j, m * k ≤ j → (proj st)[j]? = (proj s0)[j]?) →
      ∃ st', body k st = some st' ∧ I (k + 1) st' ∧ (proj st').length = L ∧
        ∀ j, (proj st')[j]? =
          if m * k ≤ j ∧ j < m * k + m then some (f j) else (proj st)[j]?) :
    ∃ s', forLoop body n s0 = some s' ∧ I n s' ∧ (proj s').length = L ∧
      ∀ j, (proj s')[j]? = if j < m * n then some (f j) else (proj s0)[j]? := by
  apply forLoop_inv body
    (fun k st => I k st ∧ (proj st).length = L ∧
      ∀ j, (proj st)[j]? = if j < m * k then some (f j) else (proj s0)[j]?)
  · exact ⟨hI0, hL, fun j => by simp⟩
  · rintro k st hk ⟨hI, hlen, hcell⟩
    have hrest : ∀ j, m * k ≤ j → (proj st)[j]? = (proj s0)[j]? := by
      intro j hj
      rw [hcell j, if_neg (by omega)]
    obtain ⟨st', hb, hI', hlen', hcell'⟩ := hstep k st hk hI hlen hrest
    refine ⟨st', hb, hI', hlen', fun j => ?_⟩
    rw [hcell' j, hcell j, Nat.mul_succ]
    by_cases h1 : j < m * k
    · rw [if_neg (by omega), if_pos h1, if_pos (by omega)]
    · by_cases h2 : j < m * k + m
      · rw [if_pos ⟨by omega, h2⟩, if_pos h2]
      · rw [if_neg (by omega), if_neg h1, if_neg h2]

/-! ## Conditional subtraction -/

theorem poly_csubq_eq (a : poly) (h : a.coeffs.length = 256) :
    poly_csubq a = some ⟨a.coeffs.map csubq⟩ := by
  obtain ⟨s, hs, -, hlen, hcell⟩ := forLoop_fill (fun st : poly => st.coeffs) (fun _ _ => True)
    (fun i r => do
      let c ← load r.coeffs i
      let cs ← store r.coeffs i (csubq c)
      pure ⟨cs⟩) 1 256 256 (fun j => csubq (a.coeffs.getD j 0)) a trivial h
    (by
      intro k st hk _ hlen hrest
      beta_reduce at hlen hrest
      have hk' : k < a.coeffs.length := by omega
      have hload : st.coeffs[k]? = some (a.coeffs.getD k 0) := by
        rw [hrest k (by omega)]
        simp [List.getD, List.getElem?_eq_getElem hk']
      refine ⟨⟨st.coeffs.set k (csubq (a.coeffs.getD k 0))⟩, ?_, trivial, by simpa using hlen, ?_⟩
      · simp [load_of_eq hload, store_of_lt _ (show k < st.coeffs.length by omega)]
      · intro j
        by_cases hj : j = k
        · subst hj
          simp [List.getElem?_set, hlen, hk]
        · rw [if_neg (by omega), List.getElem?_set_ne (by omega)])
  have hrun : poly_csubq a = some s := hs
  obtain ⟨cs⟩ := s
  have hcs : cs = a.coeffs.map csubq := by
    apply List.ext_getElem?
    intro j
    rw [hcell j]
    by_cases hj : j < 256
    · simp [hj, List.getD, List.getElem?_eq_getElem (show j < a.coeffs.length by omega)]
    · simp [hj, List.getElem?_eq_none (show a.coeffs.length ≤ j by omega)]
  rw [hrun, hcs]

theorem getElem?_getD {α : Type} (xs : List α) (i : Nat) (d : α) (h : i < xs.length) :
    xs[i]? = some (xs.getD i d) := by
  simp [List.getD, List.getElem?_eq_getElem h]

theorem getElem?_set_self {α : Type} (xs : List α) (i : Nat) (v : α) (h : i < xs.length) :
    (xs.set i v)[i]? = some v := by
  simp [List.getElem?_set, h]

/-! ## Serialisation -/

/-- The byte that `poly_tobytes` writes to cell `j`, given the reduced
coefficients `cs`. -/
theorem poly_tobytes_cells (r : List Nat) (a : poly)
    (ha : a.coeffs.length = 256) (hr : r.length = 384) :
    ∃ b, poly_tobytes r a = some (b, ⟨a.coeffs.map csubq⟩) ∧ b.length = 384 ∧
      ∀ i, i < 128 →
        b[3 * i]? = some (toU8 (toU16 (csubq (a.coeffs.getD (2 * i) 0)) &&& 0xff)) ∧
        b[3 * i + 1]? = some (toU8 ((toU16 (csubq (a.coeffs.getD (2 * i) 0)) >>> 8) |||
          ((toU16 (csubq (a.coeffs.getD (2 * i + 1) 0)) &&& 0xf) <<< 4))) ∧
        b[3 * i + 2]? = some (toU8 ((toU16 (csubq (a.coeffs.getD (2 * i + 1) 0)) >>> 4) &&& 0xff)) := by
  have hcs : (a.coeffs.map csubq).length = 256 := by simpa using ha
  have hc : ∀ j, j < 256 → (a.coeffs.map csubq)[j]? = some (csubq (a.coeffs.getD j 0)) := by
    intro j hj
    simp [List.getD, List.getElem?_eq_getElem (show j < a.coeffs.length by omega)]
  obtain ⟨b, hb, -, hlen, hcell⟩ := forLoop_fill (fun st : List Nat => st) (fun _ _ => True)
    (fun i r => do
      let t0 := toU16 (← load (poly.mk (a.coeffs.map csubq)).coeffs (2 * i))
      let t1 := toU16 (← load (poly.mk (a.coeffs.map csubq)).coeffs (2 * i + 1))
      let r ← store r (3 * i) (toU8 (t0 &&& 0xff))
      let r ← store r (3 * i + 1) (toU8 ((t0 >>> 8) ||| ((t1 &&& 0xf) <<< 4)))
      store r (3 * i + 2) (toU8 ((t1 >>> 4) &&& 0xff))) 3 384 128
    (fun j =>
      if j % 3 = 0 then toU8 (toU16 (csubq (a.coeffs.getD (2 * (j / 3)) 0)) &&& 0xff)
      else if j % 3 = 1 then
        toU8 ((toU16 (csubq (a.coeffs.getD (2 * (j / 3)) 0)) >>> 8) |||
          ((toU16 (csubq (a.coeffs.getD (2 * (j / 3) + 1) 0)) &&& 0xf) <<< 4))
      else toU8 ((toU16 (csubq (a.coeffs.getD (2 * (j / 3) + 1) 0)) >>> 4) &&& 0xff))
    r trivial hr
    (by
      intro k st hk _ hlen _
      beta_reduce at hlen
      apply Exists.intro
      refine ⟨?hb, trivial, ?hl, ?hc⟩
      case hb =>
        simp only [bind_pure_comp, Option.bind_eq_bind, load_of_eq (hc (2 * k) (by omega)),
          load_of_eq (hc (2 * k + 1) (by omega)), Option.some_bind, Option.map_eq_map]
        rw [store_of_lt _ (show 3 * k < st.length by omega)]
        simp only [Option.some_bind]
        rw [store_of_lt _ (show 3 * k + 1 < (st.set _ _).length by simp; omega)]
        simp only [Option.some_bind]
        rw [store_of_lt _ (show 3 * k + 2 < ((st.set _ _).set _ _).length by simp; omega)]
      case hl => simpa using hlen
      case hc =>
        intro j
        beta_reduce
        have e0 : (3 * k) % 3 = 0 := by omega
        have e1 : (3 * k + 1) % 3 = 1 := by omega
        have e2 : (3 * k + 2) % 3 = 2 := by omega
        have d0 : (3 * k) / 3 = k := by omega
        have d1 : (3 * k + 1) / 3 = k := by omega
        have d2 : (3 * k + 2) / 3 = k := by omega
        by_cases h2 : j = 3 * k + 2
        · subst h2
          rw [getElem?_set_self _ _ _ (by simp; omega), if_pos (by omega)]
          simp [e2, d2]
        · rw [List.getElem?_set_ne (by omega)]
          by_cases h1 : j = 3 * k + 1
          · subst h1
            rw [getElem?_set_self _ _ _ (by simp; omega), if_pos (by omega)]
            simp [e1, d1]
          · rw [List.getElem?_set_ne (by omega)]
            by_cases h0 : j = 3 * k
            · subst h0
              rw [getElem?_set_self _ _ _ (by omega), if_pos (by omega)]
              simp [e0, d0]
            · rw [List.getElem?_set_ne (by omega), if_neg (by omega)])
  refine ⟨b, ?_, hlen, ?_⟩
  · have hrun : forLoop (fun i r => do
      let t0 := toU16 (← load (poly.mk (a.coeffs.map csubq)).coeffs (2 * i))
      let t1 := toU16 (← load (poly.mk (a.coeffs.map csubq)).coeffs (2 * i + 1))
      let r ← store r (3 * i) (toU8 (t0 &&& 0xff))
      let r ← store r (3 * i + 1) (toU8 ((t0 >>> 8) ||| ((t1 &&& 0xf) <<< 4)))
      store r (3 * i + 2) (toU8 ((t1 >>> 4) &&& 0xff))) (KYBER_N / 2) r = some b := hb
    simp only [Option.bind_eq_bind] at hrun
    simp only [poly_tobytes, poly_csubq_eq a ha, Option.bind_eq_bind, Option.some_bind, hrun,
      Option.pure_def]
  · intro i hi
    have e0 : (3 * i) % 3 = 0 := by omega
    have e1 : (3 * i + 1) % 3 = 1 := by omega
    have e2 : (3 * i + 2) % 3 = 2 := by omega
    have d0 : (3 * i) / 3 = i := by omega
    have d1 : (3 * i + 1) / 3 = i := by omega
    have d2 : (3 * i + 2) / 3 = i := by omega
    refine ⟨?_, ?_, ?_⟩
    · rw [hcell, if_pos (by omega)]; simp [e0, d0]
    · rw [hcell, if_pos (by omega)]; simp [e1, d1]
    · rw [hcell, if_pos (by omega)]; simp [e2, d2]

/-- The cells that `poly_frombytes` writes, before any arithmetic
simplification. -/
theorem poly_frombytes_cells (r : poly) (a : List Nat)
    (hr : r.coeffs.length = 256) (ha : a.length = 384) :
    ∃ p, poly_frombytes r a = some p ∧ p.coeffs.length = 256 ∧
      ∀ i, i < 128 →
        p.coeffs[2 * i]? = some (toI16 ((a.getD (3 * i) 0 |||
          ((toU16 (a.getD (3 * i + 1) 0) &&& 0x0f) <<< 8) : Nat))) ∧
        p.coeffs[2 * i + 1]? = some (toI16 (((a.getD (3 * i + 1) 0 >>> 4) |||
          ((toU16 (a.getD (3 * i + 2) 0) &&& 0xff) <<< 4) : Nat))) := by
  obtain ⟨p, hp, -, hlen, hcell⟩ := forLoop_fill (fun st : poly => st.coeffs) (fun _ _ => True)
    (fun i r => do
      let x0 ← load a (3 * i)
      let x1 ← load a (3 * i + 1)
      let cs ← store r.coeffs (2 * i) (toI16 ((x0 ||| ((toU16 x1 &&& 0x0f) <<< 8) : Nat)))
      let y1 ← load a (3 * i + 1)
      let y2 ← load a (3 * i + 2)
      let cs ← store cs (2 * i + 1) (toI16 (((y1 >>> 4) ||| ((toU16 y2 &&& 0xff) <<< 4) : Nat)))
      pure ⟨cs⟩) 2 256 128
    (fun j =>
      if j % 2 = 0 then toI16 ((a.getD (3 * (j / 2)) 0 |||
          ((toU16 (a.getD (3 * (j / 2) + 1) 0) &&& 0x0f) <<< 8) : Nat))
      else toI16 (((a.getD (3 * (j / 2) + 1) 0 >>> 4) |||
          ((toU16 (a.getD (3 * (j / 2) + 2) 0) &&& 0xff) <<< 4) : Nat)))
    r trivial hr
    (by
      intro k st hk _ hlen _
      beta_reduce at hlen
      apply Exists.intro
      refine ⟨?hb, trivial, ?hl, ?hc⟩
      case hb =>
        simp only [bind_pure_comp, Option.bind_eq_bind, Option.some_bind, Option.map_eq_map,
          load_of_eq (getElem?_getD a (3 * k) 0 (by omega)),
          load_of_eq (getElem?_getD a (3 * k + 1) 0 (by omega)),
          load_of_eq (getElem?_getD a (3 * k + 2) 0 (by omega))]
        rw [store_of_lt _ (show 2 * k < st.coeffs.length by omega)]
        simp only [Option.some_bind]
        rw [store_of_lt _ (show 2 * k + 1 < (st.coeffs.set _ _).length by simp; omega)]
        rfl
      case hl => simpa using hlen
      case hc =>
        intro j
        beta_reduce
        have e0 : (2 * k) % 2 = 0 := by omega
        have e1 : (2 * k + 1) % 2 = 1 := by omega
        have d0 : (2 * k) / 2 = k := by omega
        have d1 : (2 * k + 1) / 2 = k := by omega
        by_cases h1 : j = 2 * k + 1
        · subst h1
          rw [getElem?_set_self _ _ _ (by simp; omega), if_pos (by omega)]
          simp [e1, d1]
        · rw [List.getElem?_set_ne (by omega)]
          by_cases h0 : j = 2 * k
          · subst h0
            rw [getElem?_set_self _ _ _ (by omega), if_pos (by omega)]
            simp [e0, d0]
          · rw [List.getElem?_set_ne (by omega), if_neg (by omega)])
  refine ⟨p, hp, hlen, ?_⟩
  intro i hi
  have e0 : (2 * i) % 2 = 0 := by omega
  have e1 : (2 * i + 1) % 2 = 1 := by omega
  have d0 : (2 * i) / 2 = i := by omega
  have d1 : (2 * i + 1) / 2 = i := by omega
  refine ⟨?_, ?_⟩
  · rw [hcell, if_pos (by omega)]; simp [e0, d0]
  · rw [hcell, if_pos (by omega)]; simp [e1, d1]

/-! ## Machine arithmetic -/

theorem and_255 (x : Nat) : x &&& 255 = x % 256 :=
  Nat.and_pow_two_sub_one_eq_mod x 8

theorem and_15 (x : Nat) : x &&& 15 = x % 16 :=
  Nat.and_pow_two_sub_one_eq_mod x 4

theorem and_1 (x : Nat) : x &&& 1 = x % 2 :=
  Nat.and_pow_two_sub_one_eq_mod x 1

theorem shr_4 (x : Nat) : x >>> 4 = x / 16 :=
  Nat.shiftRight_eq_div_pow x 4

theorem shr_8 (x : Nat) : x >>> 8 = x / 256 :=
  Nat.shiftRight_eq_div_pow x 8

theorem or_shl (a b n : Nat) (h : a < 2 ^ n) : a ||| (b <<< n) = a + 2 ^ n * b := by
  rw [Nat.shiftLeft_eq, Nat.mul_comm b, Nat.lor_comm, ← Nat.mul_add_lt_is_or h, Nat.add_comm]

theorem toU16_of_nonneg (x : Int) (h0 : 0 ≤ x) (h1 : x < 65536) : toU16 x = x.toNat := by
  unfold toU16
  congr 1
  omega

theorem toU16_natCast (n : Nat) (h : n < 65536) : toU16 (n : Int) = n := by
  unfold toU16
  omega

theorem toI16_natCast (n : Nat) (h : n < 32768) : toI16 (n : Int) = n := by
  unfold toI16 Int.bmod
  simp only [Nat.reducePow, Nat.cast_ofNat]
  omega

theorem tobytes_byte0 (n : Nat) : toU8 (n &&& 0xff) = n % 256 := by
  rw [and_255, toU8]
  omega

theorem tobytes_byte1 (n m : Nat) (hn : n < 4096) :
    toU8 ((n >>> 8) ||| ((m &&& 0xf) <<< 4)) = n / 256 + 16 * (m % 16) := by
  rw [and_15, shr_8, or_shl _ _ 4 (by omega), toU8]
  omega

theorem tobytes_byte2 (m : Nat) (hm : m < 4096) : toU8 ((m >>> 4) &&& 0xff) = m / 16 := by
  rw [and_255, shr_4, toU8]
  omega

theorem frombytes_even (x0 x1 : Nat) (h0 : x0 < 256) (h1 : x1 < 256) :
    toI16 ((x0 ||| ((toU16 x1 &&& 0x0f) <<< 8) : Nat)) = ((x0 + 256 * (x1 % 16) : Nat) : Int) := by
  rw [toU16_natCast x1 (by omega), and_15, or_shl _ _ 8 (by omega), toI16_natCast _ (by omega)]
  congr 2

theorem frombytes_odd (x1 x2 : Nat) (h1 : x1 < 256) (h2 : x2 < 256) :
    toI16 (((x1 >>> 4) ||| ((toU16 x2 &&& 0xff) <<< 4) : Nat)) = ((x1 / 16 + 16 * x2 : Nat) : Int) := by
  rw [toU16_natCast x2 (by omega), and_255, shr_4, or_shl _ _ 4 (by omega),
    toI16_natCast _ (by omega)]
  congr 2
  omega

theorem getD_of_getElem? {α : Type} {xs : List α} {i : Nat} {v : α} (d : α)
    (h : xs[i]? = some v) : xs.getD i d = v := by
  simp [List.getD, h]

theorem mem_of_getElem?_eq {α : Type} {xs : List α} {i : Nat} {v : α}
    (h : xs[i]? = some v) : v ∈ xs := by
  obtain ⟨hi, rfl⟩ := List.getElem?_eq_some.mp h
  exact List.getElem_mem hi

theorem getD_mem {α : Type} (xs : List α) (i : Nat) (d : α) (h : i < xs.length) :
    xs.getD i d ∈ xs :=
  mem_of_getElem?_eq (getElem?_getD xs i d h)

theorem csubq_of_lt_two_q (x : Int) (h0 : 0 ≤ x) (h1 : x < 2 * 3329) :
    csubq x = (if x < 3329 then x else x - 3329) ∧ 0 ≤ csubq x ∧ csubq x < 3329 := by
  unfold csubq
  simp only [Nat.cast_ofNat]
  split_ifs <;> omega

theorem csubq_of_lt_q (x : Int) (h1 : x < 3329) : csubq x = x := by
  unfold csubq
  simp only [Nat.cast_ofNat]
  split_ifs <;> omega

/-- The bytes written by `poly_tobytes` for coefficients in [0, 2q), with the
bit operations resolved into division and remainder. -/
theorem poly_tobytes_canon (r : List Nat) (p : poly)
    (hp : p.coeffs.length = 256) (hr : r.length = 384)
    (hrange : ∀ c ∈ p.coeffs, 0 ≤ c ∧ c < 2 * 3329) :
    ∃ b, poly_tobytes r p = some (b, ⟨p.coeffs.map csubq⟩) ∧ b.length = 384 ∧
      ∀ i, i < 128 →
        b[3 * i]? = some ((csubq (p.coeffs.getD (2 * i) 0)).toNat % 256) ∧
        b[3 * i + 1]? = some ((csubq (p.coeffs.getD (2 * i) 0)).toNat / 256 +
          16 * ((csubq (p.coeffs.getD (2 * i + 1) 0)).toNat % 16)) ∧
        b[3 * i + 2]? = some ((csubq (p.coeffs.getD (2 * i + 1) 0)).toNat / 16) := by
  obtain ⟨b, hrun, hlen, hcell⟩ := poly_tobytes_cells r p hp hr
  refine ⟨b, hrun, hlen, ?_⟩
  intro i hi
  obtain ⟨h0, h1, h2⟩ := hcell i hi
  have hxr := hrange _ (getD_mem p.coeffs (2 * i) 0 (by omega))
  have hyr := hrange _ (getD_mem p.coeffs (2 * i + 1) 0 (by omega))
  obtain ⟨-, ex0, ex1⟩ := csubq_of_lt_two_q _ hxr.1 hxr.2
  obtain ⟨-, ey0, ey1⟩ := csubq_of_lt_two_q _ hyr.1 hyr.2
  rw [toU16_of_nonneg _ ex0 (by omega)] at h0 h1
  rw [toU16_of_nonneg _ ey0 (by omega)] at h1 h2
  rw [tobytes_byte0] at h0
  rw [tobytes_byte1 _ _ (by omega)] at h1
  rw [tobytes_byte2 _ (by omega)] at h2
  exact ⟨h0, h1, h2⟩

/-- The coefficients written by `poly_frombytes` for an array of bytes, with
the bit operations resolved into division and remainder. -/
theorem poly_frombytes_coeffs (r : poly) (b : List Nat)
    (hr : r.coeffs.length = 256) (hb : b.length = 384) (hbyte : ∀ x ∈ b, x < 256) :
    ∃ p, poly_frombytes r b = some p ∧ p.coeffs.length = 256 ∧
      ∀ i, i < 128 →
        p.coeffs[2 * i]? =
          some ((b.getD (3 * i) 0 + 256 * (b.getD (3 * i + 1) 0 % 16) : Nat) : Int) ∧
        p.coeffs[2 * i + 1]? =
          some ((b.getD (3 * i + 1) 0 / 16 + 16 * b.getD (3 * i + 2) 0 : Nat) : Int) := by
  obtain ⟨p, hrun, hlen, hcell⟩ := poly_frombytes_cells r b hr hb
  have hget : ∀ j, j < 384 → b.getD j 0 < 256 := by
    intro j hj
    exact hbyte _ (getD_mem b j 0 (by omega))
  refine ⟨p, hrun, hlen, ?_⟩
  intro i hi
  obtain ⟨h0, h1⟩ := hcell i hi
  rw [frombytes_even _ _ (hget _ (by omega)) (hget _ (by omega))] at h0
  rw [frombytes_odd _ _ (hget _ (by omega)) (hget _ (by omega))] at h1
  exact ⟨h0, h1⟩

/-! ## Claims on serialisation -/

/-- C1: serialisation round trip. For a polynomial `p` with 256 coefficients in
[0, q), `poly_tobytes` succeeds on a 384-byte array and `poly_frombytes`
applied to the bytes it wrote succeeds and returns exactly `p`, whatever the
output buffers held before. -/
theorem poly_frombytes_tobytes (p r0 : poly) (r : List Nat)
    (hp : p.coeffs.length = 256) (hr0 : r0.coeffs.length = 256) (hr : r.length = 384)
    (hrange : ∀ c ∈ p.coeffs, 0 ≤ c ∧ c < 3329) :
    ∃ b a', poly_tobytes r p = some (b, a') ∧ b.length = 384 ∧
      poly_frombytes r0 b = some p := by
  obtain ⟨b, hrun, hlen, hcell⟩ := poly_tobytes_canon r p hp hr
    (fun c hc => ⟨(hrange c hc).1, by have := (hrange c hc).2; omega⟩)
  have hc : ∀ j, j < 256 → 0 ≤ p.coeffs.getD j 0 ∧ p.coeffs.getD j 0 < 3329 ∧
      csubq (p.coeffs.getD j 0) = p.coeffs.getD j 0 := by
    intro j hj
    have h := hrange _ (getD_mem p.coeffs j 0 (by omega))
    exact ⟨h.1, h.2, csubq_of_lt_q _ h.2⟩
  have hbyte : ∀ x ∈ b, x < 256 := by
    intro x hx
    obtain ⟨j, hj⟩ := List.mem_iff_getElem?.mp hx
    have hj384 : j < 384 := by
      obtain ⟨hlt, -⟩ := List.getElem?_eq_some.mp hj
      omega
    obtain ⟨h0, h1, h2⟩ := hcell (j / 3) (by omega)
    obtain ⟨a0, a1, a2⟩ := hc (2 * (j / 3)) (by omega)
    obtain ⟨c0, c1, c2⟩ := hc (2 * (j / 3) + 1) (by omega)
    rw [a2] at h0 h1
    rw [c2] at h1 h2
    have hcase : j = 3 * (j / 3) ∨ j = 3 * (j / 3) + 1 ∨ j = 3 * (j / 3) + 2 := by omega
    rcases hcase with e | e | e
    · rw [← e, hj] at h0
      have := Option.some.inj h0
      omega
    · rw [← e, hj] at h1
      have := Option.some.inj h1
      omega
    · rw [← e, hj] at h2
      have := Option.some.inj h2
      omega
  obtain ⟨p', hrun', hlen', hcell'⟩ := poly_frombytes_coeffs r0 b hr0 hlen hbyte
  refine ⟨b, _, hrun, hlen, ?_⟩
  rw [hrun']
  have hlist : p'.coeffs = p.coeffs := by
    apply List.ext_getElem?
    intro j
    by_cases hj : j < 256
    · obtain ⟨h0, h1, h2⟩ := hcell (j / 2) (by omega)
      obtain ⟨g0, g1⟩ := hcell' (j / 2) (by omega)
      obtain ⟨a0, a1, a2⟩ := hc (2 * (j / 2)) (by omega)
      obtain ⟨c0, c1, c2⟩ := hc (2 * (j / 2) + 1) (by omega)
      rw [a2] at h0 h1
      rw [c2] at h1 h2
      rw [getD_of_getElem? 0 h0, getD_of_getElem? 0 h1] at g0
      rw [getD_of_getElem? 0 h1, getD_of_getElem? 0 h2] at g1
      rcases Nat.mod_two_eq_zero_or_one j with hpar | hpar
      · have ej : 2 * (j / 2) = j := by omega
        rw [ej] at g0 a0 a1
        rw [g0, getElem?_getD p.coeffs j 0 (by omega)]
        exact congrArg some (by omega)
      · have ej : 2 * (j / 2) + 1 = j := by omega
        rw [ej] at g1 c0 c1
        rw [g1, getElem?_getD p.coeffs j 0 (by omega)]
        exact congrArg some (by omega)
    · rw [List.getElem?_eq_none (by omega), List.getElem?_eq_none (by omega)]
  obtain ⟨cs'⟩ := p'
  obtain ⟨cs⟩ := p
  exact congrArg some (congrArg poly.mk hlist)

theorem poly_frombytes_tobytes_witness :
    (poly.mk (List.replicate 256 1234)).coeffs.length = 256 ∧
    (poly.mk (List.replicate 256 0)).coeffs.length = 256 ∧
    (List.replicate 384 0).length = 384 ∧
    (∀ c ∈ (poly.mk (List.replicate 256 1234)).coeffs, 0 ≤ c ∧ c < 3329) ∧
    ∃ b a', poly_tobytes (List.replicate 384 0) (poly.mk (List.replicate 256 1234)) = some (b, a') ∧
      b.length = 384 ∧
      poly_frombytes (poly.mk (List.replicate 256 0)) b = some (poly.mk (List.replicate 256 1234)) := by
  have hp : (poly.mk (List.replicate 256 1234)).coeffs.length = 256 :=
    List.length_replicate _ _
  have hr0 : (poly.mk (List.replicate 256 0)).coeffs.length = 256 := List.length_replicate _ _
  have hr : (List.replicate 384 0).length = 384 := List.length_replicate _ _
  have hrange : ∀ c ∈ (poly.mk (List.replicate 256 1234)).coeffs, 0 ≤ c ∧ c < 3329 := by
    intro c hc
    rw [List.eq_of_mem_replicate hc]
    omega
  exact ⟨hp, hr0, hr, hrange, poly_frombytes_tobytes _ _ _ hp hr0 hr hrange⟩

/-- C6: byte layout of `poly_tobytes`. For a polynomial with 256 coefficients
in [0, 2q) and a 384-byte output array, the call succeeds, the output keeps
its 384 bytes, and with `c0`, `c1` the coefficients `2i`, `2i+1` after one
conditional subtraction of q, byte `3i` is `c0 mod 256`, byte `3i+1` is
`c0 div 256 + 16 * (c1 mod 16)` and byte `3i+2` is `c1 div 16`. -/
theorem poly_tobytes_layout (r : List Nat) (p : poly)
    (hp : p.coeffs.length = 256) (hr : r.length = 384)
    (hrange : ∀ c ∈ p.coeffs, 0 ≤ c ∧ c < 2 * 3329) :
    ∃ b a', poly_tobytes r p = some (b, a') ∧ b.length = 384 ∧
      ∀ i, i < 128 → ∀ x y : Int,
        p.coeffs[2 * i]? = some x → p.coeffs[2 * i + 1]? = some y →
        let c0 : Int := if x < 3329 then x else x - 3329
        let c1 : Int := if y < 3329 then y else y - 3329
        b[3 * i]? = some (c0 % 256).toNat ∧
        b[3 * i + 1]? = some (c0 / 256 + 16 * (c1 % 16)).toNat ∧
        b[3 * i + 2]? = some (c1 / 16).toNat := by
  obtain ⟨b, hrun, hlen, hcell⟩ := poly_tobytes_canon r p hp hr hrange
  refine ⟨b, _, hrun, hlen, ?_⟩
  intro i hi x y hx hy c0 c1
  obtain ⟨h0, h1, h2⟩ := hcell i hi
  rw [getD_of_getElem? 0 hx] at h0 h1
  rw [getD_of_getElem? 0 hy] at h1 h2
  have hxr := hrange x (mem_of_getElem?_eq hx)
  have hyr := hrange y (mem_of_getElem?_eq hy)
  obtain ⟨ex, ex0, ex1⟩ := csubq_of_lt_two_q x hxr.1 hxr.2
  obtain ⟨ey, ey0, ey1⟩ := csubq_of_lt_two_q y hyr.1 hyr.2
  have ec0 : csubq x = c0 := ex
  have ec1 : csubq y = c1 := ey
  rw [ec0] at h0 h1 ex0 ex1
  rw [ec1] at h1 h2 ey0 ey1
  refine ⟨?_, ?_, ?_⟩
  · rw [h0]; exact congrArg some (by omega)
  · rw [h1]; exact congrArg some (by omega)
  · rw [h2]; exact congrArg some (by omega)

theorem poly_tobytes_layout_witness :
    (poly.mk (List.replicate 256 3330)).coeffs.length = 256 ∧
    (List.replicate 384 0).length = 384 ∧
    (∀ c ∈ (poly.mk (List.replicate 256 3330)).coeffs, 0 ≤ c ∧ c < 2 * 3329) ∧
    ∃ b a', poly_tobytes (List.replicate 384 0) (poly.mk (List.replicate 256 3330)) = some (b, a') ∧
      b.length = 384 ∧ b[0]? = some 1 ∧ b[1]? = some 16 ∧ b[2]? = some 0 := by
  have hp : (poly.mk (List.replicate 256 3330)).coeffs.length = 256 :=
    List.length_replicate _ _
  have hr : (List.replicate 384 0).length = 384 := List.length_replicate _ _
  have hrange : ∀ c ∈ (poly.mk (List.replicate 256 3330)).coeffs, 0 ≤ c ∧ c < 2 * 3329 := by
    intro c hc
    rw [List.eq_of_mem_replicate hc]
    omega
  obtain ⟨b, a', hrun, hlen, hcell⟩ := poly_tobytes_layout _ _ hp hr hrange
  refine ⟨hp, hr, hrange, b, a', hrun, hlen, ?_⟩
  have h := hcell 0 (by omega) 3330 3330
    (List.getElem?_replicate_of_lt (by omega)) (List.getElem?_replicate_of_lt (by omega))
  exact h

/-- C7: `poly_frombytes` is exact 12-bit unpacking without validation. For a
384-byte array `b` (every cell below 256) and a 256-coefficient destination,
the call succeeds; coefficient `2i` is `b[3i] + 256 * (b[3i+1] mod 16)` and
coefficient `2i+1` is `b[3i+1] div 16 + 16 * b[3i+2]`; every coefficient lies
in [0, 4096) and is stored unreduced, so the all-0xFF array yields 4095
everywhere. -/
theorem poly_frombytes_unpack (r : poly) (b : List Nat)
    (hr : r.coeffs.length = 256) (hb : b.length = 384) (hbyte : ∀ x ∈ b, x < 256) :
    ∃ p, poly_frombytes r b = some p ∧ p.coeffs.length = 256 ∧
      (∀ i, i < 128 → ∀ b0 b1 b2 : Nat,
        b[3 * i]? = some b0 → b[3 * i + 1]? = some b1 → b[3 * i + 2]? = some b2 →
        p.coeffs[2 * i]? = some ((b0 + 256 * (b1 % 16) : Nat) : Int) ∧
        p.coeffs[2 * i + 1]? = some ((b1 / 16 + 16 * b2 : Nat) : Int)) ∧
      (∀ c ∈ p.coeffs, 0 ≤ c ∧ c < 4096) ∧
      ((∀ x ∈ b, x = 255) → p = ⟨List.replicate 256 4095⟩) := by
  obtain ⟨p, hrun, hlen, hcell2⟩ := poly_frombytes_coeffs r b hr hb hbyte
  have hget : ∀ j, j < 384 → b.getD j 0 < 256 := by
    intro j hj
    exact hbyte _ (getD_mem b j 0 (by omega))
  refine ⟨p, hrun, hlen, ?_, ?_, ?_⟩
  · intro i hi b0 b1 b2 e0 e1 e2
    have h := hcell2 i hi
    rw [getD_of_getElem? 0 e0, getD_of_getElem? 0 e1, getD_of_getElem? 0 e2] at h
    exact h
  · intro c hc
    obtain ⟨j, hj⟩ := List.mem_iff_getElem?.mp hc
    have hj256 : j < 256 := by
      obtain ⟨hlt, -⟩ := List.getElem?_eq_some.mp hj
      omega
    have hA := hget (3 * (j / 2)) (by omega)
    have hB := hget (3 * (j / 2) + 1) (by omega)
    have hC := hget (3 * (j / 2) + 2) (by omega)
    obtain ⟨h0, h1⟩ := hcell2 (j / 2) (by omega)
    rcases Nat.mod_two_eq_zero_or_one j with hpar | hpar
    · have ej : 2 * (j / 2) = j := by omega
      rw [ej, hj] at h0
      have hc' := Option.some.inj h0
      omega
    · have ej : 2 * (j / 2) + 1 = j := by omega
      rw [ej, hj] at h1
      have hc' := Option.some.inj h1
      omega
  · intro hall
    have hget255 : ∀ j, j < 384 → b.getD j 0 = 255 := by
      intro j hj
      exact hall _ (mem_of_getElem?_eq (getElem?_getD b j 0 (by omega)))
    obtain ⟨cs⟩ := p
    refine congrArg poly.mk ?_
    apply List.ext_getElem?
    intro j
    by_cases hj : j < 256
    · rw [List.getElem?_replicate, if_pos hj]
      obtain ⟨h0, h1⟩ := hcell2 (j / 2) (by omega)
      rw [hget255 _ (by omega), hget255 _ (by omega)] at h0
      rw [hget255 _ (by omega), hget255 _ (by omega)] at h1
      rcases Nat.mod_two_eq_zero_or_one j with hpar | hpar
      · have ej : 2 * (j / 2) = j := by omega
        rw [ej] at h0
        rw [h0]
        rfl
      · have ej : 2 * (j / 2) + 1 = j := by omega
        rw [ej] at h1
        rw [h1]
        rfl
    · rw [List.getElem?_eq_none (show cs.length ≤ j from by
          have : cs.length = 256 := hlen
          omega),
        List.getElem?_eq_none (by rw [List.length_replicate]; omega)]

theorem poly_frombytes_unpack_witness :
    (poly.mk (List.replicate 256 0)).coeffs.length = 256 ∧
    (List.replicate 384 255).length = 384 ∧
    (∀ x ∈ List.replicate 384 255, x < 256) ∧
    poly_frombytes (poly.mk (List.replicate 256 0)) (List.replicate 384 255) =
      some (poly.mk (List.replicate 256 4095)) := by
  have hr : (poly.mk (List.replicate 256 0)).coeffs.length = 256 := List.length_replicate _ _
  have hb : (List.replicate 384 255).length = 384 := List.length_replicate _ _
  have hbyte : ∀ x ∈ List.replicate 384 255, x < 256 := by
    intro x hx
    rw [List.eq_of_mem_replicate hx]
    omega
  obtain ⟨p, hrun, -, -, -, hall⟩ := poly_frombytes_unpack _ _ hr hb hbyte
  refine ⟨hr, hb, hbyte, ?_⟩
  rw [hrun, hall (fun x hx => List.eq_of_mem_replicate hx)]

/-! ## Loops that fill an array block by block -/

theorem bind_post {α β : Type} {x : Option α} {k : α → Option β} {R : β → Prop}
    (h : ∃ s, x = some s ∧ ∃ p, k s = some p ∧ R p) : ∃ p, (x >>= k) = some p ∧ R p := by
  obtain ⟨s, hs, p, hp, hR⟩ := h
  exact ⟨p, by rw [hs]; exact hp, hR⟩

theorem forLoop_post {σ : Type} (P : Nat → σ → Prop)
    {body : Nat → σ → Option σ} {n : Nat} {s0 : σ} {R : σ → Prop} (h0 : P 0 s0)
    (hstep : ∀ k st, k < n → P k st → ∃ st', body k st = some st' ∧ P (k + 1) st')
    (hpost : ∀ s', P n s' → R s') :
    ∃ s', forLoop body n s0 = some s' ∧ R s' := by
  obtain ⟨s', hs, hP⟩ := forLoop_inv body P n s0 h0 hstep
  exact ⟨s', hs, hpost s' hP⟩

/-- A loop whose iteration `k` overwrites the `m` cells from `base + m * k` on
of the array `proj st` with `g k 0`, ..., `g k (m - 1)` and touches no other
cell: afterwards the blocks hold `g` and the rest of the array is as before. -/
theorem forLoop_blocks {σ β : Type} (proj : σ → List β) (I : Nat → σ → Prop)
    (base m L : Nat) (g : Nat → Nat → β)
    {body : Nat → σ → Option σ} {n : Nat} {s0 : σ} {R : σ → Prop}
    (hI0 : I 0 s0) (hL : (proj s0).length = L)
    (hstep : ∀ k st, k < n → I k st → (proj st).length = L →
      ∃ st', body k st = some st' ∧ I (k + 1) st' ∧ (proj st').length = L ∧
        (∀ t, t < m → (proj st')[base + m * k + t]? = some (g k t)) ∧
        (∀ j, (j < base + m * k ∨ base + m * k + m ≤ j) → (proj st')[j]? = (proj st)[j]?))
    (hpost : ∀ s', I n s' → (proj s').length = L →
      (∀ k t, k < n → t < m → (proj s')[base + m * k + t]? = some (g k t)) →
      (∀ j, (j < base ∨ base + m * n ≤ j) → (proj s')[j]? = (proj s0)[j]?) → R s') :
    ∃ s', forLoop body n s0 = some s' ∧ R s' := by
  apply forLoop_post (fun k st => I k st ∧ (proj st).length = L ∧
      (∀ k' t, k' < k → t < m → (proj st)[base + m * k' + t]? = some (g k' t)) ∧
      (∀ j, (j < base ∨ base + m * k ≤ j) → (proj st)[j]? = (proj s0)[j]?))
  · exact ⟨hI0, hL, fun k' t hk' => absurd hk' (Nat.not_lt_zero _), fun j _ => rfl⟩
  · rintro k st hk ⟨hI, hlen, hdone, hrest⟩
    obtain ⟨st', hb, hI', hlen', hnew, hold⟩ := hstep k st hk hI hlen
    refine ⟨st', hb, hI', hlen', ?_, ?_⟩
    · intro k' t hk' ht
      by_cases hkk : k' = k
      · subst hkk
        exact hnew t ht
      · have h1 : m * (k' + 1) ≤ m * k := Nat.mul_le_mul_left m (by omega)
        rw [Nat.mul_succ] at h1
        rw [hold _ (Or.inl (by omega))]
        exact hdone k' t (by omega) ht
    · intro j hj
      have h1 : m * (k + 1) = m * k + m := Nat.mul_succ m k
      rw [hold j (by omega)]
      exact hrest j (by omega)
  · rintro s' ⟨hI, hlen, hdone, hrest⟩
    exact hpost s' hI hlen hdone hrest

theorem load_nat {xs : List Nat} {i : Nat} (h : i < xs.length) :
    load xs i = some (xs.getD i 0) :=
  getElem?_getD xs i 0 h

theorem load_int {xs : List Int} {i : Nat} (h : i < xs.length) :
    load xs i = some (xs.getD i 0) :=
  getElem?_getD xs i 0 h


/-! ## Compression -/

theorem udiv_q (x : Nat) : udiv x KYBER_Q = some (x / KYBER_Q) := by
  simp [udiv]

/-- The cells that `poly_compress` writes, before any arithmetic
simplification: byte `4n + t` packs the quantised coefficients `8n + 2t` and
`8n + 2t + 1`. -/
theorem poly_compress_cells (r : List Nat) (a : poly)
    (ha : a.coeffs.length = 256) (hr : r.length = 128) :
    ∃ res, poly_compress r a = some res ∧ res.2 = ⟨a.coeffs.map csubq⟩ ∧ res.1.length = 128 ∧
      ∀ n t, n < 32 → t < 4 → res.1[4 * n + t]? = some (toU8
        (toU8 ((((toU32 (csubq (a.coeffs.getD (8 * n + 2 * t) 0)) <<< 4) % 2 ^ 32 + KYBER_Q / 2)
            % 2 ^ 32 / KYBER_Q) &&& 15) |||
          (toU8 ((((toU32 (csubq (a.coeffs.getD (8 * n + (2 * t + 1)) 0)) <<< 4) % 2 ^ 32
            + KYBER_Q / 2) % 2 ^ 32 / KYBER_Q) &&& 15) <<< 4))) := by
  have hc : ∀ j, j < 256 → load (a.coeffs.map csubq) j = some (csubq (a.coeffs.getD j 0)) := by
    intro j hj
    simp [load, List.getD, List.getElem?_eq_getElem (show j < a.coeffs.length by omega)]
  unfold poly_compress forStep
  rw [poly_csubq_eq a ha]
  apply bind_post
  refine ⟨_, rfl, ?_⟩
  beta_reduce
  apply bind_post
  refine forLoop_blocks (fun st : List Nat × List Nat × Nat => st.1)
    (fun n st => st.2.2 = 4 * n ∧ st.2.1.length = 8) 0 4 128
    (fun n t => toU8
        (toU8 ((((toU32 (csubq (a.coeffs.getD (8 * n + 2 * t) 0)) <<< 4) % 2 ^ 32 + KYBER_Q / 2)
            % 2 ^ 32 / KYBER_Q) &&& 15) |||
          (toU8 ((((toU32 (csubq (a.coeffs.getD (8 * n + (2 * t + 1)) 0)) <<< 4) % 2 ^ 32
            + KYBER_Q / 2) % 2 ^ 32 / KYBER_Q) &&& 15) <<< 4)))
    ⟨rfl, List.length_replicate _ _⟩ hr ?_ ?_
  · rintro n ⟨st, t, kk⟩ hn ⟨hI, ht⟩ hlen
    have hn32 : n < 32 := hn
    simp only at hI ht hlen
    subst hI
    dsimp only
    apply bind_post
    refine forLoop_blocks (fun t : List Nat => t) (fun _ _ => True) 0 1 8
      (fun j _ => toU8 ((((toU32 (csubq (a.coeffs.getD (8 * n + j) 0)) <<< 4) % 2 ^ 32
        + KYBER_Q / 2) % 2 ^ 32 / KYBER_Q) &&& 15)) trivial ht ?_ ?_
    · intro j t' hj _ ht'
      have ht8 : t'.length = 8 := ht'
      apply Exists.intro
      refine ⟨?hb, trivial, ?hl, ?hnew, ?hold⟩
      case hb =>
        simp (disch := omega) only [Option.bind_eq_bind, hc, udiv_q, Option.some_bind,
          store_of_lt]
        rfl
      case hl => simpa only [List.length_set] using ht8
      case hnew =>
        intro u hu
        have hu0 : u = 0 := by omega
        subst hu0
        simp (disch := omega) only [getElem?_set_self, Nat.zero_add, Nat.add_zero, Nat.one_mul]
      case hold =>
        intro i hi
        simp (disch := omega) only [List.getElem?_set_ne]
    · intro t' _ ht' hdone _
      have ht8 : t'.length = 8 := ht'
      have hcell : ∀ j, j < 8 → load t' j = some (toU8 ((((toU32 (csubq (a.coeffs.getD (8 * n + j) 0))
          <<< 4) % 2 ^ 32 + KYBER_Q / 2) % 2 ^ 32 / KYBER_Q) &&& 15)) := by
        intro j hj
        have h := hdone j 0 hj (by omega)
        simpa only [Nat.zero_add, Nat.add_zero, Nat.one_mul] using h
      apply Exists.intro
      refine ⟨?hb, ⟨?hk, ?ht⟩, ?hl, ?hnew, ?hold⟩
      case hb =>
        simp (disch := first | omega | (simp only [List.length_set]; omega)) only
          [Option.bind_eq_bind, hcell, Option.some_bind, store_of_lt, Option.pure_def]
        rfl
      case hk => simp only; omega
      case ht => exact ht8
      case hl => simpa only [List.length_set] using hlen
      case hnew =>
        intro u hu
        interval_cases u <;>
          simp (disch := first | omega | (simp only [List.length_set]; omega)) only
            [List.getElem?_set_ne, getElem?_set_self, Nat.add_zero, Nat.zero_add, Nat.mul_zero,
              Nat.mul_one, Nat.reduceMul, Nat.reduceAdd]
      case hold =>
        intro j hj
        simp (disch := omega) only [List.getElem?_set_ne]
  · rintro ⟨b, t, kk⟩ - hlen hdone -
    exact ⟨_, rfl, rfl, hlen, fun n t hn ht => by simpa using hdone n t hn ht⟩

/-- The cells that `poly_decompress` writes, before any arithmetic
simplification: coefficient `8k + t` comes from byte `4k + t / 2`. -/
theorem poly_decompress_cells (r : poly) (a : List Nat)
    (hr : r.coeffs.length = 256) (ha : a.length = 128) :
    ∃ p, poly_decompress r a = some p ∧ p.coeffs.length = 256 ∧
      ∀ k t, k < 32 → t < 8 → p.coeffs[8 * k + t]? =
        some (toI16 (Int.ofNat (((if t % 2 = 0 then a.getD (4 * k + t / 2) 0 &&& 15
          else a.getD (4 * k + t / 2) 0 >>> 4) * KYBER_Q + 8) >>> 4))) := by
  unfold poly_decompress forStep
  apply bind_post
  refine forLoop_blocks (fun st : poly × Nat => st.1.coeffs) (fun k st => st.2 = 4 * k)
    0 8 256 (fun k t => toI16 (Int.ofNat (((if t % 2 = 0 then a.getD (4 * k + t / 2) 0 &&& 15
          else a.getD (4 * k + t / 2) 0 >>> 4) * KYBER_Q + 8) >>> 4))) rfl hr ?_ ?_
  · rintro k ⟨st, off⟩ hk hI hlen
    have hk32 : k < 32 := hk
    simp only at hI hlen
    subst hI
    apply Exists.intro
    refine ⟨?hb, ?hI, ?hl, ?hnew, ?hold⟩
    case hb =>
      simp only [bind_pure_comp, Option.bind_eq_bind, Option.pure_def]
      simp (disch := omega) only [load_nat, Option.some_bind]
      simp (disch := first | omega | (simp only [List.length_set]; omega)) only [store_of_lt, Option.some_bind]
      rfl
    case hI => simp only; omega
    case hl => simpa only [List.length_set] using hlen
    case hnew =>
      intro t ht
      interval_cases t <;>
        simp (disch := first | omega | (simp only [List.length_set]; omega)) only
          [List.getElem?_set_ne, getElem?_set_self, Nat.add_zero, Nat.zero_add, Nat.reduceMod,
            Nat.reduceDiv, if_true, if_false, Nat.one_ne_zero, Nat.reduceEqDiff]
    case hold =>
      intro j hj
      simp (disch := omega) only [List.getElem?_set_ne]
  · rintro ⟨p, off⟩ - hlen hdone -
    exact ⟨p, rfl, hlen, fun k t hk ht => by simpa using hdone k t hk ht⟩

theorem toU32_of_nonneg (x : Int) (h0 : 0 ≤ x) (h1 : x < 4294967296) : toU32 x = x.toNat := by
  unfold toU32
  congr 1
  omega

/-- The quantised value `poly_compress` assigns to `t[j]`, for a coefficient
in [0, q). -/
theorem compress_nibble (c : Int) (h0 : 0 ≤ c) (h1 : c < 3329) :
    toU8 ((((toU32 c <<< 4) % 2 ^ 32 + KYBER_Q / 2) % 2 ^ 32 / KYBER_Q) &&& 15) =
      (16 * c.toNat + 1664) / 3329 % 16 := by
  rw [toU32_of_nonneg c h0 (by omega), and_15, Nat.shiftLeft_eq, toU8]
  have hn : c.toNat < 3329 := by omega
  have e1 : c.toNat * 2 ^ 4 % 2 ^ 32 = 16 * c.toNat := by omega
  have e2 : (16 * c.toNat + 3329 / 2) % 2 ^ 32 = 16 * c.toNat + 1664 := by omega
  simp only [KYBER_Q]
  rw [e1, e2]
  omega

theorem compress_byte (lo hi : Nat) (hlo : lo < 16) (hhi : hi < 16) :
    toU8 (lo ||| (hi <<< 4)) = lo + 16 * hi := by
  rw [or_shl _ _ 4 (by omega), toU8]
  omega

theorem decompress_lo (x : Nat) :
    toI16 (Int.ofNat (((x &&& 15) * KYBER_Q + 8) >>> 4)) = (((x % 16) * 3329 + 8) / 16 : Nat) := by
  rw [and_15, shr_4, Int.ofNat_eq_coe, toI16_natCast _ (by simp only [KYBER_Q]; omega)]

theorem decompress_hi (x : Nat) (hx : x < 256) :
    toI16 (Int.ofNat (((x >>> 4) * KYBER_Q + 8) >>> 4)) = (((x / 16) * 3329 + 8) / 16 : Nat) := by
  rw [shr_4, shr_4, Int.ofNat_eq_coe, toI16_natCast _ (by simp only [KYBER_Q]; omega)]

/-- The bytes written by `poly_compress` for coefficients in [0, q). -/
theorem poly_compress_canon (r : List Nat) (p : poly)
    (hp : p.coeffs.length = 256) (hr : r.length = 128)
    (hrange : ∀ c ∈ p.coeffs, 0 ≤ c ∧ c < 3329) :
    ∃ b, poly_compress r p = some (b, ⟨p.coeffs.map csubq⟩) ∧ b.length = 128 ∧
      ∀ k, k < 128 → b[k]? = some
        ((16 * (p.coeffs.getD (2 * k) 0).toNat + 1664) / 3329 % 16 +
          16 * ((16 * (p.coeffs.getD (2 * k + 1) 0).toNat + 1664) / 3329 % 16)) := by
  obtain ⟨⟨b, a'⟩, hrun, ha', hlen, hcell⟩ := poly_compress_cells r p hp hr
  simp only at ha' hlen hcell
  subst ha'
  refine ⟨b, hrun, hlen, ?_⟩
  intro k hk
  have h := hcell (k / 4) (k % 4) (by omega) (by omega)
  have e0 : 4 * (k / 4) + k % 4 = k := by omega
  have e1 : 8 * (k / 4) + 2 * (k % 4) = 2 * k := by omega
  have e2 : 8 * (k / 4) + (2 * (k % 4) + 1) = 2 * k + 1 := by omega
  rw [e0, e1, e2] at h
  have hx := hrange _ (getD_mem p.coeffs (2 * k) 0 (by omega))
  have hy := hrange _ (getD_mem p.coeffs (2 * k + 1) 0 (by omega))
  rw [csubq_of_lt_q _ hx.2, csubq_of_lt_q _ hy.2, compress_nibble _ hx.1 hx.2,
    compress_nibble _ hy.1 hy.2, compress_byte _ _ (by omega) (by omega)] at h
  exact h

/-- The coefficients written by `poly_decompress` for an array of bytes. -/
theorem poly_decompress_coeffs (r : poly) (b : List Nat)
    (hr : r.coeffs.length = 256) (hb : b.length = 128) (hbyte : ∀ x ∈ b, x < 256) :
    ∃ p, poly_decompress r b = some p ∧ p.coeffs.length = 256 ∧
      ∀ k, k < 128 →
        p.coeffs[2 * k]? = some ((((b.getD k 0 % 16) * 3329 + 8) / 16 : Nat) : Int) ∧
        p.coeffs[2 * k + 1]? = some ((((b.getD k 0 / 16) * 3329 + 8) / 16 : Nat) : Int) := by
  obtain ⟨p, hrun, hlen, hcell⟩ := poly_decompress_cells r b hr hb
  refine ⟨p, hrun, hlen, ?_⟩
  intro k hk
  have hx := hbyte _ (getD_mem b k 0 (by omega))
  have e0 : 8 * (k / 4) + 2 * (k % 4) = 2 * k := by omega
  have e1 : 8 * (k / 4) + (2 * (k % 4) + 1) = 2 * k + 1 := by omega
  have d0 : 4 * (k / 4) + 2 * (k % 4) / 2 = k := by omega
  have d1 : 4 * (k / 4) + (2 * (k % 4) + 1) / 2 = k := by omega
  have m0 : 2 * (k % 4) % 2 = 0 := by omega
  have m1 : (2 * (k % 4) + 1) % 2 ≠ 0 := by omega
  have h0 := hcell (k / 4) (2 * (k % 4)) (by omega) (by omega)
  have h1 := hcell (k / 4) (2 * (k % 4) + 1) (by omega) (by omega)
  rw [e0, d0, if_pos m0, decompress_lo] at h0
  rw [e1, d1, if_neg m1, decompress_hi _ hx] at h1
  exact ⟨h0, h1⟩

/-! ## Rounding -/

theorem round_div (n : Int) (d : Nat) (hd : 0 < d) :
    round ((n : ℚ) / (d : ℚ)) = (2 * n + d) / (2 * d : Int) := by
  rw [round_eq]
  have hd' : (d : ℚ) ≠ 0 := by positivity
  have h : (n : ℚ) / d + 1 / 2 = ((2 * n + d : ℤ) : ℚ) / ((2 * d : ℕ) : ℚ) := by
    push_cast
    field_simp
    ring
  rw [h, Rat.floor_intCast_div_natCast]
  push_cast
  rfl

theorem fract_ne_half (n : Int) : Int.fract ((n : ℚ) / 3329) ≠ 1 / 2 := by
  intro h
  rw [Int.fract] at h
  have h2 : (2 * n : ℚ) = 3329 * (2 * ⌊(n : ℚ) / 3329⌋ + 1) := by
    field_simp at h
    linarith
  have h3 : 2 * n = 3329 * (2 * ⌊(n : ℚ) / 3329⌋ + 1) := by exact_mod_cast h2
  omega

theorem quantize_bound (n : Nat) (hn : n < 3329) (x y : Int) (hx : x = n)
    (hy : y = (((16 * n + 1664) / 3329 % 16 * 3329 + 8) / 16 : Nat)) :
    min |x - y| (3329 - |x - y|) ≤ 104 := by
  subst hx hy
  generalize hq : (16 * n + 1664) / 3329 = v
  have hv : v ≤ 16 := by omega
  have h1 : 3329 * v ≤ 16 * n + 1664 := by omega
  have h2 : 16 * n + 1664 < 3329 * (v + 1) := by omega
  rw [min_le_iff]
  rcases abs_cases ((n : Int) - ((v % 16 * 3329 + 8) / 16 : Nat)) with ⟨ha, hs⟩ | ⟨ha, hs⟩ <;>
    rw [ha] <;> interval_cases v <;> omega

theorem byte_lo (a b : Nat) : (a % 16 + 16 * b) % 16 = a % 16 := by omega

theorem byte_hi (a b : Nat) : (a % 16 + 16 * b) / 16 = b := by omega

/-! ## Claims on compression -/

theorem quantize_canon (n : Nat) (y : Int)
    (hy : y = (((16 * n + 1664) / 3329 % 16 * 3329 + 8) / 16 : Nat)) :
    0 ≤ y ∧ y < 3329 := by
  subst hy
  have h : (16 * n + 1664) / 3329 % 16 < 16 := Nat.mod_lt _ (by omega)
  generalize (16 * n + 1664) / 3329 % 16 = v at h
  omega

theorem circular_distance (x y : Int) (hx0 : 0 ≤ x) (hx1 : x < 3329) (hy0 : 0 ≤ y)
    (hy1 : y < 3329) (h : min |x - y| (3329 - |x - y|) ≤ 104) :
    (x - y) % 3329 ≤ 104 ∨ (y - x) % 3329 ≤ 104 := by
  rw [min_le_iff] at h
  rcases abs_cases (x - y) with ⟨ha, hs⟩ | ⟨ha, hs⟩ <;> rw [ha] at h <;> omega

/-- C2: compression bound. For a polynomial `p` with 256 coefficients in
[0, q), `poly_compress` followed by `poly_decompress` succeeds, every
coefficient `y` of the result lies in [0, q), and it is within shortest-path
distance 104 modulo q of the coefficient `x` of `p` at the same index:
`min(|x - y|, q - |x - y|) ≤ 104` with `|x - y| < q`, which is to say that
`(x - y) mod q ≤ 104` or `(y - x) mod q ≤ 104`. -/
theorem poly_decompress_compress_bound (r : List Nat) (r0 p : poly)
    (hp : p.coeffs.length = 256) (hr0 : r0.coeffs.length = 256) (hr : r.length = 128)
    (hrange : ∀ c ∈ p.coeffs, 0 ≤ c ∧ c < 3329) :
    ∃ b a' p', poly_compress r p = some (b, a') ∧ poly_decompress r0 b = some p' ∧
      p'.coeffs.length = 256 ∧
      ∀ i, i < 256 → ∃ x y : Int, p.coeffs[i]? = some x ∧ p'.coeffs[i]? = some y ∧
        (0 ≤ x ∧ x < 3329) ∧ (0 ≤ y ∧ y < 3329) ∧ |x - y| < 3329 ∧
        min |x - y| (3329 - |x - y|) ≤ 104 ∧
        ((x - y) % 3329 ≤ 104 ∨ (y - x) % 3329 ≤ 104) := by
  obtain ⟨b, hrun, hlen, hcell⟩ := poly_compress_canon r p hp hr hrange
  have hbyte : ∀ x ∈ b, x < 256 := by
    intro x hx
    obtain ⟨k, hk⟩ := List.mem_iff_getElem?.mp hx
    have hk128 : k < 128 := by
      obtain ⟨hlt, -⟩ := List.getElem?_eq_some.mp hk
      omega
    have h := hcell k hk128
    rw [hk] at h
    have := Option.some.inj h
    omega
  obtain ⟨p', hrun', hlen', hcell'⟩ := poly_decompress_coeffs r0 b hr0 hlen hbyte
  refine ⟨b, _, p', hrun, hrun', hlen', ?_⟩
  intro i hi
  have hx : p.coeffs[i]? = some (p.coeffs.getD i 0) := getElem?_getD p.coeffs i 0 (by omega)
  have hy : p'.coeffs[i]? = some (p'.coeffs.getD i 0) := getElem?_getD p'.coeffs i 0 (by omega)
  generalize p.coeffs.getD i 0 = x at hx
  generalize p'.coeffs.getD i 0 = y at hy
  have hb := hcell (i / 2) (by omega)
  obtain ⟨g0, g1⟩ := hcell' (i / 2) (by omega)
  rw [getD_of_getElem? 0 hb, byte_lo] at g0
  rw [getD_of_getElem? 0 hb, byte_hi] at g1
  have hxr := hrange x (mem_of_getElem?_eq hx)
  have key : ∀ n : Nat, n = x.toNat →
      y = (((16 * n + 1664) / 3329 % 16 * 3329 + 8) / 16 : Nat) →
      (0 ≤ x ∧ x < 3329) ∧ (0 ≤ y ∧ y < 3329) ∧ |x - y| < 3329 ∧
        min |x - y| (3329 - |x - y|) ≤ 104 ∧
        ((x - y) % 3329 ≤ 104 ∨ (y - x) % 3329 ≤ 104) := by
    intro n hn hyn
    have hyr := quantize_canon n y hyn
    have hd := quantize_bound n (by omega) x y (by omega) hyn
    refine ⟨hxr, hyr, ?_, hd, circular_distance x y hxr.1 hxr.2 hyr.1 hyr.2 hd⟩
    rw [abs_lt]
    omega
  rcases Nat.mod_two_eq_zero_or_one i with hpar | hpar
  · have ei : 2 * (i / 2) = i := by omega
    rw [ei] at g0 hb
    rw [getD_of_getElem? 0 hx] at g0
    rw [hy] at g0
    exact ⟨x, y, hx, hy, key _ rfl (Option.some.inj g0)⟩
  · have ei : 2 * (i / 2) + 1 = i := by omega
    rw [ei] at g1 hb
    rw [getD_of_getElem? 0 hx] at g1
    rw [hy] at g1
    exact ⟨x, y, hx, hy, key _ rfl (Option.some.inj g1)⟩

theorem poly_decompress_compress_bound_witness :
    (poly.mk (List.replicate 256 104)).coeffs.length = 256 ∧
    (poly.mk (List.replicate 256 0)).coeffs.length = 256 ∧
    (List.replicate 128 0).length = 128 ∧
    (∀ c ∈ (poly.mk (List.replicate 256 104)).coeffs, 0 ≤ c ∧ c < 3329) ∧
    ∃ b a' p', poly_compress (List.replicate 128 0) (poly.mk (List.replicate 256 104)) = some (b, a') ∧
      poly_decompress (poly.mk (List.replicate 256 0)) b = some p' ∧
      p'.coeffs.length = 256 ∧
      ∀ i, i < 256 → ∃ x y : Int, (poly.mk (List.replicate 256 104)).coeffs[i]? = some x ∧
        p'.coeffs[i]? = some y ∧
        (0 ≤ x ∧ x < 3329) ∧ (0 ≤ y ∧ y < 3329) ∧ |x - y| < 3329 ∧
        min |x - y| (3329 - |x - y|) ≤ 104 ∧
        ((x - y) % 3329 ≤ 104 ∨ (y - x) % 3329 ≤ 104) := by
  have hp : (poly.mk (List.replicate 256 104)).coeffs.length = 256 := List.length_replicate _ _
  have hr0 : (poly.mk (List.replicate 256 0)).coeffs.length = 256 := List.length_replicate _ _
  have hr : (List.replicate 128 0).length = 128 := List.length_replicate _ _
  have hrange : ∀ c ∈ (poly.mk (List.replicate 256 104)).coeffs, 0 ≤ c ∧ c < 3329 := by
    intro c hc
    rw [List.eq_of_mem_replicate hc]
    omega
  exact ⟨hp, hr0, hr, hrange, poly_decompress_compress_bound _ _ _ hp hr0 hr hrange⟩

theorem compress_quot_cast (x : Int) (h0 : 0 ≤ x) :
    (((16 * x.toNat + 1664) / 3329 % 16 : Nat) : Int) = (16 * x + 1664) / 3329 % 16 := by
  obtain ⟨n, rfl⟩ := Int.eq_ofNat_of_zero_le h0
  rw [Int.toNat_ofNat]
  push_cast
  rfl

/-- C8: compression quantiser. For a polynomial `p` with 256 coefficients in
[0, q) and a 128-byte output array, `poly_compress` succeeds and byte `k` has
low nibble `floor((16 x + 1664) / 3329) mod 16` for `x = p[2k]` and high
nibble the same value for `y = p[2k+1]`; and for every `c` in [0, q) that
integer quotient is the rational `16 c / q` rounded to the nearest integer,
where no tie occurs. -/
theorem poly_compress_quantizer (r : List Nat) (p : poly)
    (hp : p.coeffs.length = 256) (hr : r.length = 128)
    (hrange : ∀ c ∈ p.coeffs, 0 ≤ c ∧ c < 3329) :
    (∃ b a', poly_compress r p = some (b, a') ∧ b.length = 128 ∧
      ∀ k, k < 128 → ∀ x y : Int, p.coeffs[2 * k]? = some x → p.coeffs[2 * k + 1]? = some y →
        ∃ v : Nat, b[k]? = some v ∧ v < 256 ∧
          ((v % 16 : Nat) : Int) = (16 * x + 1664) / 3329 % 16 ∧
          ((v / 16 : Nat) : Int) = (16 * y + 1664) / 3329 % 16) ∧
    (∀ c : Int, 0 ≤ c → c < 3329 →
      (16 * c + 1664) / 3329 = round ((16 * c : ℚ) / 3329) ∧
      Int.fract ((16 * c : ℚ) / 3329) ≠ 1 / 2) := by
  constructor
  · obtain ⟨b, hrun, hlen, hcell⟩ := poly_compress_canon r p hp hr hrange
    refine ⟨b, _, hrun, hlen, ?_⟩
    intro k hk x y hx hy
    have h := hcell k hk
    rw [getD_of_getElem? 0 hx, getD_of_getElem? 0 hy] at h
    have hxr := hrange x (mem_of_getElem?_eq hx)
    have hyr := hrange y (mem_of_getElem?_eq hy)
    refine ⟨_, h, by omega, ?_, ?_⟩
    · rw [byte_lo]
      exact compress_quot_cast x hxr.1
    · rw [byte_hi]
      exact compress_quot_cast y hyr.1
  · intro c h0 h1
    constructor
    · have h := round_div (16 * c) 3329 (by omega)
      push_cast at h
      rw [h]
      omega
    · have h := fract_ne_half (16 * c)
      push_cast at h
      exact h

theorem poly_compress_quantizer_witness :
    (poly.mk (List.replicate 256 1000)).coeffs.length = 256 ∧
    (List.replicate 128 0).length = 128 ∧
    (∀ c ∈ (poly.mk (List.replicate 256 1000)).coeffs, 0 ≤ c ∧ c < 3329) ∧
    ∃ b a', poly_compress (List.replicate 128 0) (poly.mk (List.replicate 256 1000)) = some (b, a') ∧
      b.length = 128 ∧ b[0]? = some 85 := by
  have hp : (poly.mk (List.replicate 256 1000)).coeffs.length = 256 := List.length_replicate _ _
  have hr : (List.replicate 128 0).length = 128 := List.length_replicate _ _
  have hrange : ∀ c ∈ (poly.mk (List.replicate 256 1000)).coeffs, 0 ≤ c ∧ c < 3329 := by
    intro c hc
    rw [List.eq_of_mem_replicate hc]
    omega
  obtain ⟨⟨b, a', hrun, hlen, hcell⟩, -⟩ := poly_compress_quantizer _ _ hp hr hrange
  refine ⟨hp, hr, hrange, b, a', hrun, hlen, ?_⟩
  obtain ⟨v, hv, hv256, hlo, hhi⟩ := hcell 0 (by omega) 1000 1000
    (List.getElem?_replicate_of_lt (by omega)) (List.getElem?_replicate_of_lt (by omega))
  rw [hv]
  exact congrArg some (by omega)

/-- C9: decompression quantiser. For a 128-byte array `b` (every cell below
256) and a 256-coefficient destination, `poly_decompress` succeeds;
coefficient `2k` is `(v * 3329 + 8) div 16` for `v = b[k] mod 16` and
coefficient `2k+1` is the same for `v = b[k] div 16`; and for every 4-bit `v`
that value is the rational `v * q / 16` rounded to the nearest integer with
halves rounded up, that is `floor(v * q / 16 + 1/2)`. -/
theorem poly_decompress_quantizer (r : poly) (b : List Nat)
    (hr : r.coeffs.length = 256) (hb : b.length = 128) (hbyte : ∀ x ∈ b, x < 256) :
    (∃ p, poly_decompress r b = some p ∧ p.coeffs.length = 256 ∧
      ∀ k, k < 128 → ∀ x : Nat, b[k]? = some x →
        p.coeffs[2 * k]? = some ((((x % 16) * 3329 + 8) / 16 : Nat) : Int) ∧
        p.coeffs[2 * k + 1]? = some ((((x / 16) * 3329 + 8) / 16 : Nat) : Int)) ∧
    (∀ v : Nat, v < 16 →
      (((v * 3329 + 8) / 16 : Nat) : Int) = round ((v * 3329 : ℚ) / 16) ∧
      (((v * 3329 + 8) / 16 : Nat) : Int) = ⌊(v * 3329 : ℚ) / 16 + 1 / 2⌋) := by
  constructor
  · obtain ⟨p, hrun, hlen, hcell⟩ := poly_decompress_coeffs r b hr hb hbyte
    refine ⟨p, hrun, hlen, ?_⟩
    intro k hk x hx
    have h := hcell k hk
    rw [getD_of_getElem? 0 hx] at h
    exact h
  · intro v hv
    have h := round_div ((v : Int) * 3329) 16 (by omega)
    push_cast at h
    have e : (((v * 3329 + 8) / 16 : Nat) : Int) = round ((v * 3329 : ℚ) / 16) := by
      rw [h]
      omega
    exact ⟨e, by rw [e, round_eq]⟩

theorem poly_decompress_quantizer_witness :
    (poly.mk (List.replicate 256 0)).coeffs.length = 256 ∧
    (List.replicate 128 0x98).length = 128 ∧
    (∀ x ∈ List.replicate 128 0x98, x < 256) ∧
    ∃ p, poly_decompress (poly.mk (List.replicate 256 0)) (List.replicate 128 0x98) = some p ∧
      p.coeffs.length = 256 ∧ p.coeffs[0]? = some 1665 ∧ p.coeffs[1]? = some 1873 := by
  have hr : (poly.mk (List.replicate 256 0)).coeffs.length = 256 := List.length_replicate _ _
  have hb : (List.replicate 128 0x98).length = 128 := List.length_replicate _ _
  have hbyte : ∀ x ∈ List.replicate 128 0x98, x < 256 := by
    intro x hx
    rw [List.eq_of_mem_replicate hx]
    omega
  obtain ⟨⟨p, hrun, hlen, hcell⟩, -⟩ := poly_decompress_quantizer _ _ hr hb hbyte
  refine ⟨hr, hb, hbyte, p, hrun, hlen, ?_⟩
  exact hcell 0 (by omega) 0x98 (List.getElem?_replicate_of_lt (by omega))

/-! ## Message encoding -/

/-- The cells that `poly_frommsg` writes, before any arithmetic
simplification. -/
theorem poly_frommsg_cells (r : poly) (msg : List Nat)
    (hr : r.coeffs.length = 256) (hm : msg.length = 32) :
    ∃ p, poly_frommsg r msg = some p ∧ p.coeffs.length = 256 ∧
      ∀ i j, i < 32 → j < 8 → p.coeffs[8 * i + j]? =
        some (toI16 ((toU16 (-(((msg.getD i 0 >>> j) &&& 1 : Nat) : Int)) &&&
          ((KYBER_Q + 1) / 2) : Nat))) := by
  unfold poly_frommsg
  refine forLoop_blocks (fun st : poly => st.coeffs) (fun _ _ => True) 0 8 256
    (fun i j => toI16 ((toU16 (-(((msg.getD i 0 >>> j) &&& 1 : Nat) : Int)) &&&
          ((KYBER_Q + 1) / 2) : Nat))) trivial hr ?_ ?_
  · intro i st hi _ hlen
    have hi32 : i < 32 := hi
    have hlen256 : st.coeffs.length = 256 := hlen
    beta_reduce
    refine forLoop_blocks (fun st : poly => st.coeffs) (fun _ _ => True) (8 * i) 1 256
      (fun j _ => toI16 ((toU16 (-(((msg.getD i 0 >>> j) &&& 1 : Nat) : Int)) &&&
          ((KYBER_Q + 1) / 2) : Nat))) trivial hlen256 ?_ ?_
    · intro j st' hj _ hlen'
      have hlen'256 : st'.coeffs.length = 256 := hlen'
      apply Exists.intro
      refine ⟨?hb, trivial, ?hl, ?hnew, ?hold⟩
      case hb =>
        simp (disch := omega) only [bind_pure_comp, Option.bind_eq_bind, Option.some_bind,
          Option.map_eq_map, Option.pure_def, load_nat, store_of_lt, Option.map_some']
        rfl
      case hl => simpa only [List.length_set] using hlen'256
      case hnew =>
        intro u hu
        have hu0 : u = 0 := by omega
        subst hu0
        simp (disch := omega) only [getElem?_set_self, Nat.add_zero, Nat.one_mul]
      case hold =>
        intro l hl
        simp (disch := omega) only [List.getElem?_set_ne]
    · intro st' _ hlen' hdone hrest
      refine ⟨trivial, hlen', ?_, ?_⟩
      · intro t ht
        have h := hdone t 0 ht (by omega)
        simpa only [Nat.zero_add, Nat.add_zero, Nat.one_mul] using h
      · intro l hl
        exact hrest l (by omega)
  · intro p _ hlen hdone _
    exact ⟨hlen, fun i j hi hj => by simpa using hdone i j hi hj⟩

/-- The cells that `poly_add` writes. -/
theorem poly_add_cells (r a b : poly) (hr : r.coeffs.length = 256)
    (ha : a.coeffs.length = 256) (hb : b.coeffs.length = 256) :
    ∃ p, poly_add r a b = some p ∧ p.coeffs.length = 256 ∧
      ∀ i, i < 256 → p.coeffs[i]? = some (toI16 (a.coeffs.getD i 0 + b.coeffs.getD i 0)) := by
  unfold poly_add
  refine forLoop_blocks (fun st : poly => st.coeffs) (fun _ _ => True) 0 1 256
    (fun i _ => toI16 (a.coeffs.getD i 0 + b.coeffs.getD i 0)) trivial hr ?_ ?_
  · intro i st hi _ hlen
    have hi256 : i < 256 := hi
    have hlen256 : st.coeffs.length = 256 := hlen
    apply Exists.intro
    refine ⟨?hb, trivial, ?hl, ?hnew, ?hold⟩
    case hb =>
      simp (disch := omega) only [bind_pure_comp, Option.bind_eq_bind, Option.some_bind,
        Option.map_eq_map, Option.pure_def, load_int, store_of_lt, Option.map_some']
      rfl
    case hl => simpa only [List.length_set] using hlen256
    case hnew =>
      intro u hu
      have hu0 : u = 0 := by omega
      subst hu0
      simp (disch := omega) only [getElem?_set_self, Nat.add_zero, Nat.zero_add, Nat.one_mul]
    case hold =>
      intro l hl
      simp (disch := omega) only [List.getElem?_set_ne]
  · intro p _ hlen hdone _
    exact ⟨hlen, fun i hi => by simpa using hdone i 0 hi (by omega)⟩

theorem sdiv_q (x : Int) : sdiv x (KYBER_Q : Int) = some (Int.tdiv x KYBER_Q) := by
  simp [sdiv]

/-- The cells that `poly_tomsg` writes, before any arithmetic simplification:
byte `i` accumulates, for `j = 0, ..., 7`, the decoded bit of coefficient
`8i + j` shifted to position `j`. -/
theorem poly_tomsg_cells (msg : List Nat) (a : poly)
    (ha : a.coeffs.length = 256) (hm : msg.length = 32) :
    ∃ res, poly_tomsg msg a = some res ∧ res.2 = ⟨a.coeffs.map csubq⟩ ∧ res.1.length = 32 ∧
      ∀ i, i < 32 → res.1[i]? = some ((List.range 8).foldl (fun acc j =>
        toU8 (acc ||| (toU16 (Int.land (Int.tdiv
          (csubq (a.coeffs.getD (8 * i + j) 0) * 2 ^ 1 + ((KYBER_Q / 2 : Nat) : Int))
          (KYBER_Q : Int)) 1) <<< j))) 0) := by
  have hc : ∀ j, j < 256 → load (a.coeffs.map csubq) j = some (csubq (a.coeffs.getD j 0)) := by
    intro j hj
    simp [load, List.getD, List.getElem?_eq_getElem (show j < a.coeffs.length by omega)]
  unfold poly_tomsg
  rw [poly_csubq_eq a ha]
  apply bind_post
  refine ⟨_, rfl, ?_⟩
  beta_reduce
  apply bind_post
  refine forLoop_blocks (fun st : List Nat => st) (fun _ _ => True) 0 1 32
    (fun i _ => (List.range 8).foldl (fun acc j =>
        toU8 (acc ||| (toU16 (Int.land (Int.tdiv
          (csubq (a.coeffs.getD (8 * i + j) 0) * 2 ^ 1 + ((KYBER_Q / 2 : Nat) : Int))
          (KYBER_Q : Int)) 1) <<< j))) 0) trivial hm ?_ ?_
  · intro i st hi _ hlen
    have hi32 : i < 32 := hi
    have hlen32 : st.length = 32 := hlen
    beta_reduce
    apply bind_post
    refine ⟨_, store_of_lt 0 (show i < st.length by omega), ?_⟩
    beta_reduce
    refine forLoop_post (fun j m' => m'.length = 32 ∧
        m'[i]? = some ((List.range j).foldl (fun acc j =>
          toU8 (acc ||| (toU16 (Int.land (Int.tdiv
            (csubq (a.coeffs.getD (8 * i + j) 0) * 2 ^ 1 + ((KYBER_Q / 2 : Nat) : Int))
            (KYBER_Q : Int)) 1) <<< j))) 0) ∧
        ∀ l, l ≠ i → m'[l]? = st[l]?) ?_ ?_ ?_
    · refine ⟨by simpa only [List.length_set] using hlen32, ?_, ?_⟩
      · rw [getElem?_set_self _ _ _ (by omega)]
        rfl
      · intro l hl
        rw [List.getElem?_set_ne (by omega)]
    · rintro j m' hj ⟨hl', hacc, hoth⟩
      apply Exists.intro
      refine ⟨?hb, ?hl, ?hnew, ?hold⟩
      case hb =>
        simp (disch := omega) only [Option.bind_eq_bind, hc, sdiv_q, Option.some_bind,
          load_of_eq hacc, store_of_lt]
        rfl
      case hl => simpa only [List.length_set] using hl'
      case hnew =>
        rw [getElem?_set_self _ _ _ (by omega), List.range_succ, List.foldl_append]
        rfl
      case hold =>
        intro l hl
        rw [List.getElem?_set_ne (by omega)]
        exact hoth l hl
    · rintro m' ⟨hl', hacc, hoth⟩
      refine ⟨trivial, hl', ?_, ?_⟩
      · intro t ht
        have ht0 : t = 0 := by omega
        subst ht0
        simpa only [Nat.zero_add, Nat.add_zero, Nat.one_mul] using hacc
      · intro l hl
        exact hoth l (by omega)
  · intro b _ hlen hdone _
    exact ⟨_, rfl, rfl, hlen, fun i hi => by simpa using hdone i 0 hi (by omega)⟩


theorem frommsg_value (x j : Nat) :
    toI16 ((toU16 (-(((x >>> j) &&& 1 : Nat) : Int)) &&& ((KYBER_Q + 1) / 2) : Nat)) =
      if x / 2 ^ j % 2 = 1 then 1665 else 0 := by
  rw [and_1, Nat.shiftRight_eq_div_pow]
  rcases Nat.mod_two_eq_zero_or_one (x / 2 ^ j) with h | h <;> rw [h] <;> rfl

theorem tomsg_bit (c : Int) (h0 : -832 ≤ c) (h1 : c < 3329) :
    toU16 (Int.land (Int.tdiv (c * 2 ^ 1 + ((KYBER_Q / 2 : Nat) : Int)) (KYBER_Q : Int)) 1) =
      if 833 ≤ c ∧ c ≤ 2496 then 1 else 0 := by
  have hd : Int.tdiv (c * 2 ^ 1 + ((KYBER_Q / 2 : Nat) : Int)) (KYBER_Q : Int) =
      (c * 2 + 1664) / 3329 := by
    rw [Int.tdiv_eq_ediv (by simp only [KYBER_Q]; omega) (by simp only [KYBER_Q]; omega)]
    rfl
  rw [hd]
  have hcase : (c * 2 + 1664) / 3329 = 0 ∨ (c * 2 + 1664) / 3329 = 1 ∨
      (c * 2 + 1664) / 3329 = 2 := by omega
  rcases hcase with h | h | h
  · rw [h, if_neg (by omega)]; rfl
  · rw [h, if_pos (by omega)]; rfl
  · rw [h, if_neg (by omega)]; rfl

theorem fold_bits (b : Nat → Nat) (hb : ∀ j, j < 8 → b j ≤ 1) :
    (List.range 8).foldl (fun acc j => toU8 (acc ||| (b j <<< j))) 0 =
      b 0 + 2 * b 1 + 4 * b 2 + 8 * b 3 + 16 * b 4 + 32 * b 5 + 64 * b 6 + 128 * b 7 := by
  have e : List.range 8 = [0, 1, 2, 3, 4, 5, 6, 7] := rfl
  rw [e]
  simp only [List.foldl_cons, List.foldl_nil, toU8]
  have h0 := hb 0 (by omega)
  have h1 := hb 1 (by omega)
  have h2 := hb 2 (by omega)
  have h3 := hb 3 (by omega)
  have h4 := hb 4 (by omega)
  have h5 := hb 5 (by omega)
  have h6 := hb 6 (by omega)
  have h7 := hb 7 (by omega)
  have c0 : b 0 = 0 ∨ b 0 = 1 := by omega
  have c1 : b 1 = 0 ∨ b 1 = 1 := by omega
  have c2 : b 2 = 0 ∨ b 2 = 1 := by omega
  have c3 : b 3 = 0 ∨ b 3 = 1 := by omega
  have c4 : b 4 = 0 ∨ b 4 = 1 := by omega
  have c5 : b 5 = 0 ∨ b 5 = 1 := by omega
  have c6 : b 6 = 0 ∨ b 6 = 1 := by omega
  have c7 : b 7 = 0 ∨ b 7 = 1 := by omega
  rcases c0 with e0 | e0 <;> rcases c1 with e1 | e1 <;> rcases c2 with e2 | e2 <;>
    rcases c3 with e3 | e3 <;> rcases c4 with e4 | e4 <;> rcases c5 with e5 | e5 <;>
    rcases c6 with e6 | e6 <;> rcases c7 with e7 | e7 <;>
    rw [e0, e1, e2, e3, e4, e5, e6, e7] <;> rfl

theorem fold_bits_of_eq (f b : Nat → Nat) (hf : ∀ j, j < 8 → f j = b j)
    (hb : ∀ j, j < 8 → b j ≤ 1) :
    (List.range 8).foldl (fun acc j => toU8 (acc ||| (f j <<< j))) 0 =
      b 0 + 2 * b 1 + 4 * b 2 + 8 * b 3 + 16 * b 4 + 32 * b 5 + 64 * b 6 + 128 * b 7 := by
  rw [fold_bits f (fun j hj => by rw [hf j hj]; exact hb j hj),
    hf 0 (by omega), hf 1 (by omega), hf 2 (by omega), hf 3 (by omega), hf 4 (by omega),
    hf 5 (by omega), hf 6 (by omega), hf 7 (by omega)]

theorem byte_bit (b : Nat → Nat) (hb : ∀ j, j < 8 → b j ≤ 1) (j : Nat) (hj : j < 8) :
    (b 0 + 2 * b 1 + 4 * b 2 + 8 * b 3 + 16 * b 4 + 32 * b 5 + 64 * b 6 + 128 * b 7) / 2 ^ j % 2
      = b j := by
  have h0 := hb 0 (by omega)
  have h1 := hb 1 (by omega)
  have h2 := hb 2 (by omega)
  have h3 := hb 3 (by omega)
  have h4 := hb 4 (by omega)
  have h5 := hb 5 (by omega)
  have h6 := hb 6 (by omega)
  have h7 := hb 7 (by omega)
  interval_cases j <;> omega

theorem byte_of_bits (x : Nat) (hx : x < 256) :
    x / 2 ^ 0 % 2 + 2 * (x / 2 ^ 1 % 2) + 4 * (x / 2 ^ 2 % 2) + 8 * (x / 2 ^ 3 % 2) +
      16 * (x / 2 ^ 4 % 2) + 32 * (x / 2 ^ 5 % 2) + 64 * (x / 2 ^ 6 % 2) +
      128 * (x / 2 ^ 7 % 2) = x := by
  omega

/-- The bytes written by `poly_tomsg` for coefficients in [-832, q): bit `j` of
byte `i` is set exactly when coefficient `8i + j` lies in [833, 2496]. -/
theorem poly_tomsg_canon (msg : List Nat) (p : poly)
    (hp : p.coeffs.length = 256) (hm : msg.length = 32)
    (hrange : ∀ c ∈ p.coeffs, -832 ≤ c ∧ c < 3329) :
    ∃ out, poly_tomsg msg p = some (out, ⟨p.coeffs.map csubq⟩) ∧ out.length = 32 ∧
      ∀ i, i < 32 → out[i]? = some ((fun b : Nat → Nat =>
          b 0 + 2 * b 1 + 4 * b 2 + 8 * b 3 + 16 * b 4 + 32 * b 5 + 64 * b 6 + 128 * b 7)
        (fun j => if 833 ≤ p.coeffs.getD (8 * i + j) 0 ∧ p.coeffs.getD (8 * i + j) 0 ≤ 2496
          then 1 else 0)) := by
  obtain ⟨⟨out, a'⟩, hrun, ha', hlen, hcell⟩ := poly_tomsg_cells msg p hp hm
  simp only at ha' hlen hcell
  subst ha'
  refine ⟨out, hrun, hlen, ?_⟩
  intro i hi
  rw [hcell i hi]
  refine congrArg some ?_
  refine fold_bits_of_eq _ (fun j => if 833 ≤ p.coeffs.getD (8 * i + j) 0 ∧
    p.coeffs.getD (8 * i + j) 0 ≤ 2496 then 1 else 0) ?_ ?_
  · intro j hj
    have hc := hrange _ (getD_mem p.coeffs (8 * i + j) 0 (by omega))
    beta_reduce
    rw [csubq_of_lt_q _ hc.2, tomsg_bit _ hc.1 hc.2]
  · intro j hj
    beta_reduce
    split_ifs <;> omega

/-! ## Claims on message encoding -/

theorem getD_replicate_self {α : Type} (n i : Nat) (d : α) :
    (List.replicate n d).getD i d = d := by
  simp only [List.getD, List.get?_eq_getElem?, List.getElem?_replicate]
  split_ifs <;> rfl

/-- The message whose only set bit is bit 0 of byte 0 encodes to 1665 followed
by 255 zeros. -/
theorem poly_frommsg_one (r : poly) (hr : r.coeffs.length = 256) :
    poly_frommsg r (1 :: List.replicate 31 0) = some ⟨1665 :: List.replicate 255 0⟩ := by
  obtain ⟨p, hrun, hlen, hcell⟩ := poly_frommsg_cells r (1 :: List.replicate 31 0) hr
    (by rw [List.length_cons, List.length_replicate])
  rw [hrun]
  have hlist : p.coeffs = 1665 :: List.replicate 255 0 := by
    apply List.ext_getElem?
    intro l
    by_cases hl : l < 256
    · have h := hcell (l / 8) (l % 8) (by omega) (by omega)
      have el : 8 * (l / 8) + l % 8 = l := by omega
      rw [el, frommsg_value] at h
      rw [h]
      by_cases hl0 : l = 0
      · subst hl0
        rw [List.getElem?_cons_zero]
        rfl
      · obtain ⟨l', rfl⟩ : ∃ l', l = l' + 1 := ⟨l - 1, by omega⟩
        rw [List.getElem?_cons_succ, List.getElem?_replicate_of_lt (by omega)]
        refine congrArg some (if_neg ?_)
        by_cases hi0 : (l' + 1) / 8 = 0
        · have hj : (l' + 1) % 8 ≠ 0 := by omega
          rw [hi0]
          have hj8 : (l' + 1) % 8 < 8 := by omega
          generalize (l' + 1) % 8 = j at hj hj8
          interval_cases j <;> simp at hj ⊢
        · obtain ⟨i', hi'⟩ : ∃ i', (l' + 1) / 8 = i' + 1 := ⟨(l' + 1) / 8 - 1, by omega⟩
          rw [hi', List.getD_cons_succ, getD_replicate_self]
          simp
    · rw [List.getElem?_eq_none (by omega),
        List.getElem?_eq_none (by rw [List.length_cons, List.length_replicate]; omega)]
  obtain ⟨cs⟩ := p
  exact congrArg some (congrArg poly.mk hlist)

/-- C5: message encoding. For a 32-byte message and a 256-coefficient
destination, `poly_frommsg` succeeds and coefficient `8i + j` is 1665 when bit
`j` (least significant first) of byte `i` is set and 0 otherwise; for the
message `[0x01, 0x00, ..., 0x00]` the result is 1665 followed by 255 zeros. -/
theorem poly_frommsg_encoding (r : poly) (msg : List Nat)
    (hr : r.coeffs.length = 256) (hm : msg.length = 32) :
    (∃ p, poly_frommsg r msg = some p ∧ p.coeffs.length = 256 ∧
      ∀ i j, i < 32 → j < 8 → ∀ x : Nat, msg[i]? = some x →
        p.coeffs[8 * i + j]? = some (if x / 2 ^ j % 2 = 1 then 1665 else 0)) ∧
    poly_frommsg r (1 :: List.replicate 31 0) = some ⟨1665 :: List.replicate 255 0⟩ := by
  constructor
  · obtain ⟨p, hrun, hlen, hcell⟩ := poly_frommsg_cells r msg hr hm
    refine ⟨p, hrun, hlen, ?_⟩
    intro i j hi hj x hx
    rw [hcell i j hi hj, getD_of_getElem? 0 hx, frommsg_value]
  · exact poly_frommsg_one r hr

theorem poly_frommsg_encoding_witness :
    (poly.mk (List.replicate 256 7)).coeffs.length = 256 ∧
    (List.replicate 32 0xA5).length = 32 ∧
    ∃ p, poly_frommsg (poly.mk (List.replicate 256 7)) (List.replicate 32 0xA5) = some p ∧
      p.coeffs.length = 256 ∧ p.coeffs[0]? = some 1665 ∧ p.coeffs[1]? = some 0 ∧
      p.coeffs[2]? = some 1665 := by
  have hr : (poly.mk (List.replicate 256 7)).coeffs.length = 256 := List.length_replicate _ _
  have hm : (List.replicate 32 0xA5).length = 32 := List.length_replicate _ _
  obtain ⟨⟨p, hrun, hlen, hcell⟩, -⟩ := poly_frommsg_encoding _ _ hr hm
  have hx : (List.replicate 32 0xA5)[0]? = some 0xA5 := List.getElem?_replicate_of_lt (by omega)
  exact ⟨hr, hm, p, hrun, hlen, hcell 0 0 (by omega) (by omega) _ hx,
    hcell 0 1 (by omega) (by omega) _ hx, hcell 0 2 (by omega) (by omega) _ hx⟩

/-- C10: message decoding. For a polynomial `p` with 256 coefficients in [0, q)
and a 32-byte output array, `poly_tomsg` succeeds and bit `j` (least
significant first) of output byte `i` equals `floor((2 c + 1664) / 3329) mod 2`
for `c = p[8i + j]`, which is 1 exactly when `833 ≤ c ≤ 2496`; and for every
`c` in [0, q) the quotient `floor((2 c + 1664) / 3329)` is the rational
`2 c / q` rounded to the nearest integer. -/
theorem poly_tomsg_decoding (msg : List Nat) (p : poly)
    (hp : p.coeffs.length = 256) (hm : msg.length = 32)
    (hrange : ∀ c ∈ p.coeffs, 0 ≤ c ∧ c < 3329) :
    (∃ out a', poly_tomsg msg p = some (out, a') ∧ out.length = 32 ∧
      ∀ i j, i < 32 → j < 8 → ∀ c : Int, p.coeffs[8 * i + j]? = some c →
        ∃ v : Nat, out[i]? = some v ∧ v < 256 ∧
          ((v / 2 ^ j % 2 : Nat) : Int) = (2 * c + 1664) / 3329 % 2 ∧
          (v / 2 ^ j % 2 = 1 ↔ 833 ≤ c ∧ c ≤ 2496)) ∧
    (∀ c : Int, 0 ≤ c → c < 3329 → (2 * c + 1664) / 3329 = round ((2 * c : ℚ) / 3329)) := by
  constructor
  · obtain ⟨out, hrun, hlen, hcell⟩ := poly_tomsg_canon msg p hp hm
      (fun c hc => ⟨by have := (hrange c hc).1; omega, (hrange c hc).2⟩)
    refine ⟨out, _, hrun, hlen, ?_⟩
    intro i j hi hj c hc
    have hb : ∀ l, l < 8 → (fun l => if 833 ≤ p.coeffs.getD (8 * i + l) 0 ∧
        p.coeffs.getD (8 * i + l) 0 ≤ 2496 then 1 else 0) l ≤ 1 := by
      intro l _
      beta_reduce
      split_ifs <;> omega
    have hbit := byte_bit _ hb j hj
    have hb0 := hb 0 (by omega)
    have hb1 := hb 1 (by omega)
    have hb2 := hb 2 (by omega)
    have hb3 := hb 3 (by omega)
    have hb4 := hb 4 (by omega)
    have hb5 := hb 5 (by omega)
    have hb6 := hb 6 (by omega)
    have hb7 := hb 7 (by omega)
    have hcr := hrange c (mem_of_getElem?_eq hc)
    beta_reduce at hbit hb0 hb1 hb2 hb3 hb4 hb5 hb6 hb7
    refine ⟨_, hcell i hi, ?_, ?_, ?_⟩
    · beta_reduce
      omega
    · beta_reduce
      rw [hbit, getD_of_getElem? 0 hc]
      split_ifs <;> omega
    · beta_reduce
      rw [hbit, getD_of_getElem? 0 hc]
      by_cases h : 833 ≤ c ∧ c ≤ 2496
      · rw [if_pos h]
        exact ⟨fun _ => h, fun _ => rfl⟩
      · rw [if_neg h]
        exact ⟨fun h0 => absurd h0 Nat.zero_ne_one, fun h1 => absurd h1 h⟩
  · intro c h0 h1
    have h := round_div (2 * c) 3329 (by omega)
    push_cast at h
    rw [h]
    omega

theorem poly_tomsg_decoding_witness :
    (poly.mk (List.replicate 256 833)).coeffs.length = 256 ∧
    (List.replicate 32 0).length = 32 ∧
    (∀ c ∈ (poly.mk (List.replicate 256 833)).coeffs, 0 ≤ c ∧ c < 3329) ∧
    ∃ out a', poly_tomsg (List.replicate 32 0) (poly.mk (List.replicate 256 833)) = some (out, a') ∧
      out.length = 32 ∧ ∃ v : Nat, out[0]? = some v ∧ v < 256 ∧ v / 2 ^ 3 % 2 = 1 := by
  have hp : (poly.mk (List.replicate 256 833)).coeffs.length = 256 := List.length_replicate _ _
  have hm : (List.replicate 32 0).length = 32 := List.length_replicate _ _
  have hrange : ∀ c ∈ (poly.mk (List.replicate 256 833)).coeffs, 0 ≤ c ∧ c < 3329 := by
    intro c hc
    rw [List.eq_of_mem_replicate hc]
    omega
  obtain ⟨⟨out, a', hrun, hlen, hcell⟩, -⟩ := poly_tomsg_decoding _ _ hp hm hrange
  obtain ⟨v, hv, hv256, -, hiff⟩ := hcell 0 3 (by omega) (by omega) 833
    (List.getElem?_replicate_of_lt (by omega))
  exact ⟨hp, hm, hrange, out, a', hrun, hlen, v, hv, hv256, hiff.mpr (by omega)⟩

theorem toI16_of_range (x : Int) (h0 : -32768 ≤ x) (h1 : x < 32768) : toI16 x = x := by
  unfold toI16 Int.bmod
  simp only [Nat.reducePow, Nat.cast_ofNat]
  split_ifs <;> omega

/-- When every coefficient of `s` sits in the decoding window of the matching
bit of the message `m`, `poly_tomsg` returns `m`. -/
theorem poly_tomsg_decodes (msg0 m : List Nat) (s : poly)
    (hs : s.coeffs.length = 256) (hm0 : msg0.length = 32) (hm : m.length = 32)
    (hbyte : ∀ x ∈ m, x < 256)
    (hcode : ∀ i j, i < 32 → j < 8 →
      if m.getD i 0 / 2 ^ j % 2 = 1
      then 833 ≤ s.coeffs.getD (8 * i + j) 0 ∧ s.coeffs.getD (8 * i + j) 0 ≤ 2496
      else -832 ≤ s.coeffs.getD (8 * i + j) 0 ∧ s.coeffs.getD (8 * i + j) 0 ≤ 832) :
    poly_tomsg msg0 s = some (m, ⟨s.coeffs.map csubq⟩) := by
  have hrange : ∀ c ∈ s.coeffs, -832 ≤ c ∧ c < 3329 := by
    intro c hc
    obtain ⟨l, hl⟩ := List.mem_iff_getElem?.mp hc
    have hl256 : l < 256 := by
      obtain ⟨hlt, -⟩ := List.getElem?_eq_some.mp hl
      omega
    have h := hcode (l / 8) (l % 8) (by omega) (by omega)
    have el : 8 * (l / 8) + l % 8 = l := by omega
    rw [el, getD_of_getElem? 0 hl] at h
    split_ifs at h <;> omega
  obtain ⟨out, hrun, hlen, hcell⟩ := poly_tomsg_canon msg0 s hs hm0 hrange
  have hout : out = m := by
    apply List.ext_getElem?
    intro i
    by_cases hi : i < 32
    · rw [hcell i hi, getElem?_getD m i 0 (by omega)]
      refine congrArg some ?_
      have hx := hbyte _ (getD_mem m i 0 (by omega))
      have hb : ∀ j, j < 8 → (if 833 ≤ s.coeffs.getD (8 * i + j) 0 ∧
          s.coeffs.getD (8 * i + j) 0 ≤ 2496 then 1 else 0) = m.getD i 0 / 2 ^ j % 2 := by
        intro j hj
        have h := hcode i j hi hj
        by_cases hbit : m.getD i 0 / 2 ^ j % 2 = 1
        · rw [if_pos hbit] at h
          rw [if_pos h, hbit]
        · rw [if_neg hbit] at h
          rw [if_neg (by omega)]
          omega
      beta_reduce
      rw [hb 0 (by omega), hb 1 (by omega), hb 2 (by omega), hb 3 (by omega), hb 4 (by omega),
        hb 5 (by omega), hb 6 (by omega), hb 7 (by omega)]
      exact byte_of_bits _ hx
    · rw [List.getElem?_eq_none (by omega), List.getElem?_eq_none (by omega)]
  rw [hrun, hout]

/-- C3: message round trip under zero noise. For a 32-byte message `m` (every
cell below 256), `poly_frommsg` succeeds and `poly_tomsg` applied to the
polynomial it produced succeeds and returns exactly `m`, whatever the output
buffers held before. -/
theorem poly_tomsg_frommsg (m msg0 : List Nat) (r : poly)
    (hm : m.length = 32) (hm0 : msg0.length = 32) (hr : r.coeffs.length = 256)
    (hbyte : ∀ x ∈ m, x < 256) :
    ∃ p out a', poly_frommsg r m = some p ∧ poly_tomsg msg0 p = some (out, a') ∧ out = m := by
  obtain ⟨p, hrun, hlen, hcell⟩ := poly_frommsg_cells r m hr hm
  refine ⟨p, m, _, hrun, poly_tomsg_decodes msg0 m p hlen hm0 hm hbyte ?_, rfl⟩
  intro i j hi hj
  have h := hcell i j hi hj
  rw [frommsg_value] at h
  rw [getD_of_getElem? 0 h]
  split_ifs <;> omega

theorem poly_tomsg_frommsg_witness :
    (List.replicate 32 0xC3).length = 32 ∧ (List.replicate 32 0).length = 32 ∧
    (poly.mk (List.replicate 256 0)).coeffs.length = 256 ∧
    (∀ x ∈ List.replicate 32 0xC3, x < 256) ∧
    ∃ p out a', poly_frommsg (poly.mk (List.replicate 256 0)) (List.replicate 32 0xC3) = some p ∧
      poly_tomsg (List.replicate 32 0) p = some (out, a') ∧ out = List.replicate 32 0xC3 := by
  have hm : (List.replicate 32 0xC3).length = 32 := List.length_replicate _ _
  have hm0 : (List.replicate 32 0).length = 32 := List.length_replicate _ _
  have hr : (poly.mk (List.replicate 256 0)).coeffs.length = 256 := List.length_replicate _ _
  have hbyte : ∀ x ∈ List.replicate 32 0xC3, x < 256 := by
    intro x hx
    rw [List.eq_of_mem_replicate hx]
    omega
  exact ⟨hm, hm0, hr, hbyte, poly_tomsg_frommsg _ _ _ hm hm0 hr hbyte⟩

/-- C4, as amended: message round trip under bounded noise. For a 32-byte
message `m` and a noise polynomial `e` whose 256 coefficients all lie in
[-832, 831], `poly_tomsg` applied to `poly_add` of `poly_frommsg m` and `e`
returns exactly `m`. -/
theorem poly_tomsg_add_frommsg (m msg0 : List Nat) (e r0 r1 : poly)
    (hm : m.length = 32) (hm0 : msg0.length = 32) (he : e.coeffs.length = 256)
    (hr0 : r0.coeffs.length = 256) (hr1 : r1.coeffs.length = 256)
    (hbyte : ∀ x ∈ m, x < 256) (hnoise : ∀ c ∈ e.coeffs, -832 ≤ c ∧ c ≤ 831) :
    ∃ p s out a', poly_frommsg r0 m = some p ∧ poly_add r1 p e = some s ∧
      poly_tomsg msg0 s = some (out, a') ∧ out = m := by
  obtain ⟨p, hrun, hlen, hcell⟩ := poly_frommsg_cells r0 m hr0 hm
  obtain ⟨s, hrun', hlen', hcell'⟩ := poly_add_cells r1 p e hr1 hlen he
  refine ⟨p, s, m, _, hrun, hrun', poly_tomsg_decodes msg0 m s hlen' hm0 hm hbyte ?_, rfl⟩
  intro i j hi hj
  have h := hcell i j hi hj
  have h' := hcell' (8 * i + j) (by omega)
  have hn := hnoise _ (getD_mem e.coeffs (8 * i + j) 0 (by omega))
  rw [frommsg_value] at h
  rw [getD_of_getElem? 0 h] at h'
  by_cases hbit : m.getD i 0 / 2 ^ j % 2 = 1
  · rw [if_pos hbit] at h'
    rw [toI16_of_range _ (by omega) (by omega)] at h'
    rw [getD_of_getElem? 0 h', if_pos hbit]
    omega
  · rw [if_neg hbit] at h'
    rw [toI16_of_range _ (by omega) (by omega)] at h'
    rw [getD_of_getElem? 0 h', if_neg hbit]
    omega

theorem poly_tomsg_add_frommsg_witness :
    (List.replicate 32 0xFF).length = 32 ∧ (List.replicate 32 0).length = 32 ∧
    (poly.mk (List.replicate 256 831)).coeffs.length = 256 ∧
    (poly.mk (List.replicate 256 0)).coeffs.length = 256 ∧
    (∀ x ∈ List.replicate 32 0xFF, x < 256) ∧
    (∀ c ∈ (poly.mk (List.replicate 256 831)).coeffs, -832 ≤ c ∧ c ≤ 831) ∧
    ∃ p s out a',
      poly_frommsg (poly.mk (List.replicate 256 0)) (List.replicate 32 0xFF) = some p ∧
      poly_add (poly.mk (List.replicate 256 0)) p (poly.mk (List.replicate 256 831)) = some s ∧
      poly_tomsg (List.replicate 32 0) s = some (out, a') ∧ out = List.replicate 32 0xFF := by
  have hm : (List.replicate 32 0xFF).length = 32 := List.length_replicate _ _
  have hm0 : (List.replicate 32 0).length = 32 := List.length_replicate _ _
  have he : (poly.mk (List.replicate 256 831)).coeffs.length = 256 := List.length_replicate _ _
  have hr : (poly.mk (List.replicate 256 0)).coeffs.length = 256 := List.length_replicate _ _
  have hbyte : ∀ x ∈ List.replicate 32 0xFF, x < 256 := by
    intro x hx
    rw [List.eq_of_mem_replicate hx]
    omega
  have hnoise : ∀ c ∈ (poly.mk (List.replicate 256 831)).coeffs, -832 ≤ c ∧ c ≤ 831 := by
    intro c hc
    rw [List.eq_of_mem_replicate hc]
    omega
  exact ⟨hm, hm0, he, hr, hbyte, hnoise,
    poly_tomsg_add_frommsg _ _ _ _ _ hm hm0 he hr hr hbyte hnoise⟩

/-- C4, as stated, fails: with the message `[0x01, 0x00, ..., 0x00]` and the
noise polynomial whose coefficients are all 832 (so `4 * |e[i]| = 3328 < q`),
coefficient 0 of the sum is 2497, which decodes to bit 0, and `poly_tomsg`
does not return the message. -/
theorem poly_tomsg_add_frommsg_counterexample :
    (∀ c ∈ (poly.mk (List.replicate 256 832)).coeffs, 4 * |c| < 3329) ∧
    ∃ p s out a',
      poly_frommsg (poly.mk (List.replicate 256 0)) (1 :: List.replicate 31 0) = some p ∧
      poly_add (poly.mk (List.replicate 256 0)) p (poly.mk (List.replicate 256 832)) = some s ∧
      poly_tomsg (List.replicate 32 0) s = some (out, a') ∧
      out ≠ 1 :: List.replicate 31 0 := by
  have hr : (poly.mk (List.replicate 256 0)).coeffs.length = 256 := List.length_replicate _ _
  have he : (poly.mk (List.replicate 256 832)).coeffs.length = 256 := List.length_replicate _ _
  have hp : (poly.mk (1665 :: List.replicate 255 0)).coeffs.length = 256 := by
    show (1665 :: List.replicate 255 (0 : Int)).length = 256
    rw [List.length_cons, List.length_replicate]
  have hm0 : (List.replicate 32 0).length = 32 := List.length_replicate _ _
  obtain ⟨s, hrun, hlen, hcell⟩ := poly_add_cells _ _ _ hr hp he
  have hval : ∀ l, l < 256 → s.coeffs.getD l 0 = if l = 0 then 2497 else 832 := by
    intro l hl
    rw [getD_of_getElem? 0 (hcell l hl)]
    have e2 : (poly.mk (List.replicate 256 832)).coeffs.getD l 0 = 832 := by
      rw [getD_of_getElem? 0 (List.getElem?_replicate_of_lt hl)]
    rw [e2]
    by_cases hl0 : l = 0
    · subst hl0
      rfl
    · obtain ⟨l', rfl⟩ : ∃ l', l = l' + 1 := ⟨l - 1, by omega⟩
      have e1 : (poly.mk (1665 :: List.replicate 255 0)).coeffs.getD (l' + 1) 0 = 0 := by
        show (1665 :: List.replicate 255 (0 : Int)).getD (l' + 1) 0 = 0
        rw [List.getD_cons_succ, getD_replicate_self]
      rw [e1, if_neg hl0]
      rfl
  have hrange : ∀ c ∈ s.coeffs, -832 ≤ c ∧ c < 3329 := by
    intro c hc
    obtain ⟨l, hl⟩ := List.mem_iff_getElem?.mp hc
    have hl256 : l < 256 := by
      obtain ⟨hlt, -⟩ := List.getElem?_eq_some.mp hl
      omega
    have h := hval l hl256
    rw [getD_of_getElem? 0 hl] at h
    split_ifs at h <;> omega
  obtain ⟨out, hrun', hlen', hcell'⟩ := poly_tomsg_canon (List.replicate 32 0) s hlen hm0 hrange
  refine ⟨?_, _, s, out, _, poly_frommsg_one _ hr, hrun, hrun', ?_⟩
  · intro c hc
    rw [List.eq_of_mem_replicate hc]
    decide
  · intro hout
    have h0 := hcell' 0 (by omega)
    beta_reduce at h0
    rw [hval _ (by omega), hval _ (by omega), hval _ (by omega), hval _ (by omega),
      hval _ (by omega), hval _ (by omega), hval _ (by omega), hval _ (by omega), hout] at h0
    revert h0
    decide

/-! ## Loops that map a function over the coefficients -/

/-- The in-place loop `r->coeffs[i] = g(r->coeffs[i])` over 256 cells maps `g`
over the coefficient array. -/
theorem forLoop_map_coeffs (g : Int → Int) (a : poly) (h : a.coeffs.length = 256) :
    forLoop (fun i r => do
      let c ← load r.coeffs i
      let cs ← store r.coeffs i (g c)
      pure ⟨cs⟩) 256 a = some ⟨a.coeffs.map g⟩ := by
  obtain ⟨s, hs, -, hlen, hcell⟩ := forLoop_fill (fun st : poly => st.coeffs) (fun _ _ => True)
    (fun i r => do
      let c ← load r.coeffs i
      let cs ← store r.coeffs i (g c)
      pure ⟨cs⟩) 1 256 256 (fun j => g (a.coeffs.getD j 0)) a trivial h
    (by
      intro k st hk _ hlen hrest
      beta_reduce at hlen hrest
      have hk' : k < a.coeffs.length := by omega
      have hload : st.coeffs[k]? = some (a.coeffs.getD k 0) := by
        rw [hrest k (by omega)]
        simp [List.getD, List.getElem?_eq_getElem hk']
      refine ⟨⟨st.coeffs.set k (g (a.coeffs.getD k 0))⟩, ?_, trivial, by simpa using hlen, ?_⟩
      · simp [load_of_eq hload, store_of_lt _ (show k < st.coeffs.length by omega)]
      · intro j
        by_cases hj : j = k
        · subst hj
          simp [List.getElem?_set, hlen, hk]
        · rw [if_neg (by omega), List.getElem?_set_ne (by omega)])
  obtain ⟨cs⟩ := s
  have hcs : cs = a.coeffs.map g := by
    apply List.ext_getElem?
    intro j
    rw [hcell j]
    by_cases hj : j < 256
    · simp [hj, List.getD, List.getElem?_eq_getElem (show j < a.coeffs.length by omega)]
    · simp [hj, List.getElem?_eq_none (show a.coeffs.length ≤ j by omega)]
  rw [hs, hcs]

theorem poly_reduce_eq (barrett_reduce : Int → Int) (a : poly) (h : a.coeffs.length = 256) :
    poly_reduce barrett_reduce a = some ⟨a.coeffs.map barrett_reduce⟩ :=
  forLoop_map_coeffs barrett_reduce a h

theorem poly_frommont_eq (montgomery_reduce : Int → Int) (a : poly)
    (h : a.coeffs.length = 256) :
    poly_frommont montgomery_reduce a =
      some ⟨a.coeffs.map (fun c => montgomery_reduce (c * 1353))⟩ :=
  forLoop_map_coeffs (fun c => montgomery_reduce (c * 1353)) a h

theorem getElem?_map_of_eq {α β : Type} (f : α → β) {xs : List α} {i : Nat} {x : α}
    (h : xs[i]? = some x) : (xs.map f)[i]? = some (f x) := by
  rw [List.getElem?_map, h]
  rfl

/-! ## Claims on in-place reduction -/

/-- The polynomial that `poly_tobytes`, `poly_compress` and `poly_tomsg` leave in
the caller's storage: the input with the conditional subtraction applied. -/
theorem poly_input_after_call (p : poly) (b384 b128 b32 : List Nat)
    (hp : p.coeffs.length = 256) (h384 : b384.length = 384) (h128 : b128.length = 128)
    (h32 : b32.length = 32) :
    (∃ out, poly_tobytes b384 p = some (out, ⟨p.coeffs.map csubq⟩)) ∧
    (∃ out, poly_compress b128 p = some (out, ⟨p.coeffs.map csubq⟩)) ∧
    (∃ out, poly_tomsg b32 p = some (out, ⟨p.coeffs.map csubq⟩)) := by
  refine ⟨?_, ?_, ?_⟩
  · obtain ⟨out, hrun, -⟩ := poly_tobytes_cells b384 p hp h384
    exact ⟨out, hrun⟩
  · obtain ⟨⟨out, a'⟩, hrun, ha', -⟩ := poly_compress_cells b128 p hp h128
    simp only at ha'
    subst ha'
    exact ⟨out, hrun⟩
  · obtain ⟨⟨out, a'⟩, hrun, ha', -⟩ := poly_tomsg_cells b32 p hp h32
    simp only at ha'
    subst ha'
    exact ⟨out, hrun⟩

/-- C11: the code at the failing input. With every coefficient equal to 3330,
`poly_tobytes`, `poly_compress` and `poly_tomsg` each leave the polynomial with
every coefficient equal to 1 in the caller's storage, which is not the
polynomial that was passed in. -/
theorem poly_input_overwritten :
    (∃ out, poly_tobytes (List.replicate 384 0) ⟨List.replicate 256 3330⟩ =
      some (out, ⟨List.replicate 256 1⟩)) ∧
    (∃ out, poly_compress (List.replicate 128 0) ⟨List.replicate 256 3330⟩ =
      some (out, ⟨List.replicate 256 1⟩)) ∧
    (∃ out, poly_tomsg (List.replicate 32 0) ⟨List.replicate 256 3330⟩ =
      some (out, ⟨List.replicate 256 1⟩)) ∧
    (poly.mk (List.replicate 256 1)).coeffs[0]? ≠ (poly.mk (List.replicate 256 3330)).coeffs[0]? := by
  have h := poly_input_after_call ⟨List.replicate 256 3330⟩ (List.replicate 384 0)
    (List.replicate 128 0) (List.replicate 32 0) (List.length_replicate _ _)
    (List.length_replicate _ _) (List.length_replicate _ _) (List.length_replicate _ _)
  have e : (poly.mk (List.replicate 256 3330)).coeffs.map csubq = List.replicate 256 1 :=
    List.map_replicate
  rw [e] at h
  refine ⟨h.1, h.2.1, h.2.2, ?_⟩
  show (List.replicate 256 (1 : Int))[0]? ≠ (List.replicate 256 (3330 : Int))[0]?
  rw [List.getElem?_replicate_of_lt (by omega), List.getElem?_replicate_of_lt (by omega)]
  decide

/-- C12: `poly_csubq` canonicalises. For a polynomial with 256 coefficients in
[0, 2q) the call succeeds, the result is the coefficient-wise image under the
scalar conditional subtraction, and every result coefficient equals the input
coefficient `x` if `x < q` and `x - q` otherwise, lies in [0, q) and is
congruent to `x` modulo q. -/
theorem poly_csubq_canonical (p : poly) (hp : p.coeffs.length = 256)
    (hrange : ∀ c ∈ p.coeffs, 0 ≤ c ∧ c < 2 * 3329) :
    ∃ p', poly_csubq p = some p' ∧ p'.coeffs.length = 256 ∧
      p'.coeffs = p.coeffs.map csubq ∧
      ∀ (i : Nat) (x : Int), p.coeffs[i]? = some x →
        ∃ y, p'.coeffs[i]? = some y ∧ y = (if x < 3329 then x else x - 3329) ∧
          0 ≤ y ∧ y < 3329 ∧ y ≡ x [ZMOD 3329] := by
  refine ⟨_, poly_csubq_eq p hp, by simpa using hp, rfl, ?_⟩
  intro i x hx
  have hxr := hrange x (mem_of_getElem?_eq hx)
  obtain ⟨e, h0, h1⟩ := csubq_of_lt_two_q x hxr.1 hxr.2
  refine ⟨csubq x, getElem?_map_of_eq csubq hx, e, h0, h1, ?_⟩
  rw [e, Int.ModEq]
  split_ifs <;> omega

theorem poly_csubq_canonical_witness :
    (poly.mk (List.replicate 256 5000)).coeffs.length = 256 ∧
    (∀ c ∈ (poly.mk (List.replicate 256 5000)).coeffs, 0 ≤ c ∧ c < 2 * 3329) ∧
    ∃ p', poly_csubq (poly.mk (List.replicate 256 5000)) = some p' ∧
      p'.coeffs.length = 256 ∧ p'.coeffs[0]? = some 1671 := by
  have hp : (poly.mk (List.replicate 256 5000)).coeffs.length = 256 := List.length_replicate _ _
  have hrange : ∀ c ∈ (poly.mk (List.replicate 256 5000)).coeffs, 0 ≤ c ∧ c < 2 * 3329 := by
    intro c hc
    rw [List.eq_of_mem_replicate hc]
    omega
  obtain ⟨p', hrun, hlen, -, hcell⟩ := poly_csubq_canonical _ hp hrange
  obtain ⟨y, hy, e, -⟩ := hcell 0 5000 (List.getElem?_replicate_of_lt (by omega))
  refine ⟨hp, hrange, p', hrun, hlen, ?_⟩
  rw [hy, e]
  rfl

/-! ## Claims on the transform wrappers -/

theorem modEq_mul_R_of_mont (x y : Int) (h : y * 2 ^ 16 ≡ x * 1353 [ZMOD 3329]) :
    y ≡ x * 2 ^ 16 [ZMOD 3329] := by
  rw [Int.ModEq] at h ⊢
  omega

/-- C13, as amended: `poly_frommont` multiplies by the Montgomery factor. For
any Montgomery reduction with `montgomery_reduce(x) * R ≡ x (mod q)`,
`R = 2^16`, and a polynomial with 256 coefficients, the call succeeds and
coefficient `i` of the result is `montgomery_reduce(x * 1353)` for `x = p[i]`,
with `1353 = 2^32 mod q`, which is congruent to `x * R` modulo q. -/
theorem poly_frommont_mul_R (montgomery_reduce : Int → Int) (p : poly)
    (hp : p.coeffs.length = 256)
    (hmont : ∀ x, montgomery_reduce x * 2 ^ 16 ≡ x [ZMOD 3329]) :
    (2 : Int) ^ 32 % 3329 = 1353 ∧
    ∃ p', poly_frommont montgomery_reduce p = some p' ∧ p'.coeffs.length = 256 ∧
      ∀ (i : Nat) (x : Int), p.coeffs[i]? = some x →
        ∃ y, p'.coeffs[i]? = some y ∧ y = montgomery_reduce (x * 1353) ∧
          y ≡ x * 2 ^ 16 [ZMOD 3329] := by
  refine ⟨by decide, _, poly_frommont_eq montgomery_reduce p hp, by simpa using hp, ?_⟩
  intro i x hx
  exact ⟨_, getElem?_map_of_eq (fun c => montgomery_reduce (c * 1353)) hx, rfl,
    modEq_mul_R_of_mont _ _ (hmont (x * 1353))⟩

theorem mont_model_contract (x : Int) : x * 169 % 3329 * 2 ^ 16 ≡ x [ZMOD 3329] := by
  rw [Int.ModEq]
  omega

theorem poly_frommont_mul_R_witness :
    (poly.mk (List.replicate 256 1)).coeffs.length = 256 ∧
    (∀ x : Int, x * 169 % 3329 * 2 ^ 16 ≡ x [ZMOD 3329]) ∧
    ∃ p', poly_frommont (fun x => x * 169 % 3329) (poly.mk (List.replicate 256 1)) = some p' ∧
      p'.coeffs.length = 256 ∧ p'.coeffs[0]? = some 2285 := by
  have hp : (poly.mk (List.replicate 256 1)).coeffs.length = 256 := List.length_replicate _ _
  obtain ⟨-, p', hrun, hlen, hcell⟩ :=
    poly_frommont_mul_R (fun x => x * 169 % 3329) _ hp mont_model_contract
  obtain ⟨y, hy, e, -⟩ := hcell 0 1 (List.getElem?_replicate_of_lt (by omega))
  refine ⟨hp, mont_model_contract, p', hrun, hlen, ?_⟩
  rw [hy, e]
  rfl

/-- With any Montgomery reduction meeting `montgomery_reduce(x) * R ≡ x (mod q)`,
a coefficient 2285 (which is `1 * R` modulo q) comes out of `poly_frommont`
congruent to 1353 and so not congruent to 1. -/
theorem poly_frommont_of_R (montgomery_reduce : Int → Int)
    (hmont : ∀ x, montgomery_reduce x * 2 ^ 16 ≡ x [ZMOD 3329]) :
    ∃ p' y, poly_frommont montgomery_reduce (poly.mk (List.replicate 256 2285)) = some p' ∧
      p'.coeffs[0]? = some y ∧ y ≡ 1353 [ZMOD 3329] ∧ ¬ (y ≡ 1 [ZMOD 3329]) := by
  have h := modEq_mul_R_of_mont 2285 _ (hmont (2285 * 1353))
  rw [Int.ModEq] at h
  refine ⟨_, montgomery_reduce (2285 * 1353), poly_frommont_eq _ _ (List.length_replicate _ _),
    getElem?_map_of_eq (fun c => montgomery_reduce (c * 1353))
      (List.getElem?_replicate_of_lt (by omega)), ?_, ?_⟩
  · rw [Int.ModEq]
    omega
  · rw [Int.ModEq]
    omega

/-- C13, as stated, fails. The coefficient 2285 is `1 * R` modulo q, that is
`a = 1` in Montgomery scaling. With `x ↦ x * 169 mod q`, a Montgomery reduction
in the sense of the claim (`169 * 2^16 ≡ 1`), `poly_frommont` turns it into
1353, which is `1 * R * R` modulo q and is not congruent to 1; and with every
Montgomery reduction in the sense of the claim the result is congruent to
1353 and not to 1. -/
theorem poly_frommont_counterexample :
    (2285 : Int) ≡ 1 * 2 ^ 16 [ZMOD 3329] ∧
    ((∀ x : Int, x * 169 % 3329 * 2 ^ 16 ≡ x [ZMOD 3329]) ∧
      ∃ p', poly_frommont (fun x => x * 169 % 3329) (poly.mk (List.replicate 256 2285)) =
          some p' ∧
        p'.coeffs[0]? = some 1353 ∧ (1353 : Int) ≡ 1 * 2 ^ 16 * 2 ^ 16 [ZMOD 3329] ∧
        ¬ ((1353 : Int) ≡ 1 [ZMOD 3329])) ∧
    ∀ montgomery_reduce : Int → Int,
      (∀ x, montgomery_reduce x * 2 ^ 16 ≡ x [ZMOD 3329]) →
      ∃ p' y, poly_frommont montgomery_reduce (poly.mk (List.replicate 256 2285)) = some p' ∧
        p'.coeffs[0]? = some y ∧ y ≡ 1353 [ZMOD 3329] ∧ ¬ (y ≡ 1 [ZMOD 3329]) := by
  refine ⟨by decide, ⟨mont_model_contract, _,
    poly_frommont_eq _ _ (List.length_replicate _ _), ?_, by decide, by decide⟩,
    poly_frommont_of_R⟩
  rw [getElem?_map_of_eq (fun c : Int => c * 1353 * 169 % 3329)
    (List.getElem?_replicate_of_lt (by omega))]
  rfl

/-- C15: transform wrappers. For any transform `ntt` that keeps the array at
256 cells, any `invntt` and any Barrett primitive, `poly_ntt` returns the
polynomial of the spec (every coefficient of `ntt(p)` passed through
`barrett_reduce`) and `poly_invntt` returns `invntt(p)` with no coefficient
changed afterwards. -/
theorem poly_ntt_refines (ntt invntt : List Int → List Int) (barrett_reduce : Int → Int)
    (p : poly) (hntt : (ntt p.coeffs).length = 256) :
    poly_ntt ntt barrett_reduce p = some (forward_ntt_spec ntt barrett_reduce p) ∧
    (∀ (i : Nat) (x : Int), (ntt p.coeffs)[i]? = some x →
      (forward_ntt_spec ntt barrett_reduce p).coeffs[i]? = some (barrett_reduce x)) ∧
    poly_invntt invntt p = some (inverse_ntt_spec invntt p) ∧
    (inverse_ntt_spec invntt p).coeffs = invntt p.coeffs := by
  refine ⟨poly_reduce_eq barrett_reduce ⟨ntt p.coeffs⟩ hntt, ?_, rfl, rfl⟩
  intro i x hx
  exact getElem?_map_of_eq barrett_reduce hx

theorem poly_ntt_refines_witness :
    (List.reverse (poly.mk (List.replicate 256 5000)).coeffs).length = 256 ∧
    poly_ntt List.reverse (fun x => x % 3329) (poly.mk (List.replicate 256 5000)) =
      some (forward_ntt_spec List.reverse (fun x => x % 3329) (poly.mk (List.replicate 256 5000))) ∧
    poly_invntt List.reverse (poly.mk (List.replicate 256 5000)) =
      some (inverse_ntt_spec List.reverse (poly.mk (List.replicate 256 5000))) := by
  have h : (List.reverse (poly.mk (List.replicate 256 5000)).coeffs).length = 256 := by
    rw [List.length_reverse]
    exact List.length_replicate _ _
  have hc := poly_ntt_refines List.reverse List.reverse (fun x => x % 3329)
    (poly.mk (List.replicate 256 5000)) h
  exact ⟨h, hc.1, hc.2.2.1⟩

/-! ## Pointwise multiplication -/

/-- The cells that `poly_basemul` writes: block `k` holds the two results of
the base multiplier on the first and on the second pair of block `k`. -/
theorem poly_basemul_cells (bm : Int → Int → Int → Int → Int → Int × Int)
    (zetas : List Int) (r a b : poly) (hz : zetas.length = 128)
    (hr : r.coeffs.length = 256) (ha : a.coeffs.length = 256) (hb : b.coeffs.length = 256) :
    ∃ p, poly_basemul bm zetas r a b = some p ∧ p.coeffs.length = 256 ∧
      ∀ k, k < 64 →
        p.coeffs[4 * k]? = some (bm (a.coeffs.getD (4 * k) 0) (a.coeffs.getD (4 * k + 1) 0)
          (b.coeffs.getD (4 * k) 0) (b.coeffs.getD (4 * k + 1) 0) (zetas.getD (64 + k) 0)).1 ∧
        p.coeffs[4 * k + 1]? = some (bm (a.coeffs.getD (4 * k) 0) (a.coeffs.getD (4 * k + 1) 0)
          (b.coeffs.getD (4 * k) 0) (b.coeffs.getD (4 * k + 1) 0) (zetas.getD (64 + k) 0)).2 ∧
        p.coeffs[4 * k + 2]? = some (bm (a.coeffs.getD (4 * k + 2) 0)
          (a.coeffs.getD (4 * k + 3) 0) (b.coeffs.getD (4 * k + 2) 0)
          (b.coeffs.getD (4 * k + 3) 0) (toI16 (-(zetas.getD (64 + k) 0)))).1 ∧
        p.coeffs[4 * k + 3]? = some (bm (a.coeffs.getD (4 * k + 2) 0)
          (a.coeffs.getD (4 * k + 3) 0) (b.coeffs.getD (4 * k + 2) 0)
          (b.coeffs.getD (4 * k + 3) 0) (toI16 (-(zetas.getD (64 + k) 0)))).2 := by
  unfold poly_basemul
  refine forLoop_blocks (fun st : poly => st.coeffs) (fun _ _ => True) 0 4 256
    (fun k t =>
      if t = 0 then (bm (a.coeffs.getD (4 * k) 0) (a.coeffs.getD (4 * k + 1) 0)
          (b.coeffs.getD (4 * k) 0) (b.coeffs.getD (4 * k + 1) 0) (zetas.getD (64 + k) 0)).1
      else if t = 1 then (bm (a.coeffs.getD (4 * k) 0) (a.coeffs.getD (4 * k + 1) 0)
          (b.coeffs.getD (4 * k) 0) (b.coeffs.getD (4 * k + 1) 0) (zetas.getD (64 + k) 0)).2
      else if t = 2 then (bm (a.coeffs.getD (4 * k + 2) 0)
          (a.coeffs.getD (4 * k + 2 + 1) 0) (b.coeffs.getD (4 * k + 2) 0)
          (b.coeffs.getD (4 * k + 2 + 1) 0) (toI16 (-(zetas.getD (64 + k) 0)))).1
      else (bm (a.coeffs.getD (4 * k + 2) 0)
          (a.coeffs.getD (4 * k + 2 + 1) 0) (b.coeffs.getD (4 * k + 2) 0)
          (b.coeffs.getD (4 * k + 2 + 1) 0) (toI16 (-(zetas.getD (64 + k) 0)))).2)
    trivial hr ?_ ?_
  · intro k st hk _ hlen
    have hk64 : k < 64 := hk
    have hlen256 : st.coeffs.length = 256 := hlen
    apply Exists.intro
    refine ⟨?hb, trivial, ?hl, ?hnew, ?hold⟩
    case hb =>
      simp (disch := first | omega | (simp only [List.length_set]; omega)) only
        [bind_pure_comp, Option.bind_eq_bind, Option.some_bind, Option.map_eq_map,
          Option.pure_def, load_int, store_of_lt, Option.map_some']
      rfl
    case hl => simpa only [List.length_set] using hlen256
    case hnew =>
      intro t ht
      interval_cases t <;>
        simp (disch := first | omega | (simp only [List.length_set]; omega)) only
          [List.getElem?_set_ne, getElem?_set_self, Nat.add_zero, Nat.zero_add, if_true,
            if_false, Nat.one_ne_zero, Nat.reduceEqDiff, OfNat.ofNat_ne_zero, OfNat.ofNat_ne_one,
            Nat.add_assoc, Nat.reduceAdd]
    case hold =>
      intro j hj
      simp (disch := omega) only [List.getElem?_set_ne]
  · intro p _ hlen hdone _
    refine ⟨hlen, fun k hk => ?_⟩
    have h0 := hdone k 0 hk (by omega)
    have h1 := hdone k 1 hk (by omega)
    have h2 := hdone k 2 hk (by omega)
    have h3 := hdone k 3 hk (by omega)
    simp only [Nat.zero_add, Nat.add_zero, if_true, if_false, Nat.one_ne_zero,
      OfNat.ofNat_ne_zero, OfNat.ofNat_ne_one, Nat.reduceEqDiff, Nat.add_assoc,
      Nat.reduceAdd] at h0 h1 h2 h3
    exact ⟨h0, h1, h2, h3⟩

theorem toI16_neg_of_range (z : Int) (h0 : -32768 < z) (h1 : z ≤ 32767) : toI16 (-z) = -z :=
  toI16_of_range (-z) (by omega) (by omega)

theorem poly_ext_of_cells (p q : poly) (hp : p.coeffs.length = 256) (hq : q.coeffs.length = 256)
    (h : ∀ j, j < 256 → p.coeffs[j]? = q.coeffs[j]?) : p = q := by
  have hlist : p.coeffs = q.coeffs := by
    apply List.ext_getElem?
    intro j
    by_cases hj : j < 256
    · exact h j hj
    · rw [List.getElem?_eq_none (by omega), List.getElem?_eq_none (by omega)]
  obtain ⟨cs⟩ := p
  obtain ⟨ds⟩ := q
  exact congrArg poly.mk hlist

/-- C14: block structure of `poly_basemul`. For any base multiplier, a table of
128 twiddles (signed 16-bit values other than -32768) and 256-coefficient
polynomials, the call succeeds; output coefficients `4i`, `4i+1` are the base
multiplier's result on `(a[4i], a[4i+1])`, `(b[4i], b[4i+1])` with twiddle
`zetas[64+i]`, output coefficients `4i+2`, `4i+3` are its result on
`(a[4i+2], a[4i+3])`, `(b[4i+2], b[4i+3])` with twiddle `-zetas[64+i]`; and the
result does not depend on what the destination held, since all 256
coefficients are written. -/
theorem poly_basemul_blocks (bm : Int → Int → Int → Int → Int → Int × Int)
    (zetas : List Int) (r a b : poly) (hz : zetas.length = 128)
    (hr : r.coeffs.length = 256) (ha : a.coeffs.length = 256) (hb : b.coeffs.length = 256)
    (hzr : ∀ z ∈ zetas, -32768 < z ∧ z ≤ 32767) :
    (∃ p, poly_basemul bm zetas r a b = some p ∧ p.coeffs.length = 256 ∧
      ∀ i, i < 64 → ∀ a0 a1 a2 a3 b0 b1 b2 b3 z : Int,
        a.coeffs[4 * i]? = some a0 → a.coeffs[4 * i + 1]? = some a1 →
        a.coeffs[4 * i + 2]? = some a2 → a.coeffs[4 * i + 3]? = some a3 →
        b.coeffs[4 * i]? = some b0 → b.coeffs[4 * i + 1]? = some b1 →
        b.coeffs[4 * i + 2]? = some b2 → b.coeffs[4 * i + 3]? = some b3 →
        zetas[64 + i]? = some z →
        p.coeffs[4 * i]? = some (bm a0 a1 b0 b1 z).1 ∧
        p.coeffs[4 * i + 1]? = some (bm a0 a1 b0 b1 z).2 ∧
        p.coeffs[4 * i + 2]? = some (bm a2 a3 b2 b3 (-z)).1 ∧
        p.coeffs[4 * i + 3]? = some (bm a2 a3 b2 b3 (-z)).2) ∧
    (∀ r' : poly, r'.coeffs.length = 256 →
      poly_basemul bm zetas r' a b = poly_basemul bm zetas r a b) := by
  obtain ⟨p, hrun, hlen, hcell⟩ := poly_basemul_cells bm zetas r a b hz hr ha hb
  constructor
  · refine ⟨p, hrun, hlen, ?_⟩
    intro i hi a0 a1 a2 a3 b0 b1 b2 b3 z ha0 ha1 ha2 ha3 hb0 hb1 hb2 hb3 hz0
    have h := hcell i hi
    have hzz := hzr z (mem_of_getElem?_eq hz0)
    rw [getD_of_getElem? 0 ha0, getD_of_getElem? 0 ha1, getD_of_getElem? 0 ha2,
      getD_of_getElem? 0 ha3, getD_of_getElem? 0 hb0, getD_of_getElem? 0 hb1,
      getD_of_getElem? 0 hb2, getD_of_getElem? 0 hb3, getD_of_getElem? 0 hz0,
      toI16_neg_of_range z hzz.1 hzz.2] at h
    exact h
  · intro r' hr'
    obtain ⟨p', hrun', hlen', hcell'⟩ := poly_basemul_cells bm zetas r' a b hz hr' ha hb
    rw [hrun, hrun']
    refine congrArg some (poly_ext_of_cells p' p hlen' hlen ?_)
    intro j hj
    obtain ⟨h0, h1, h2, h3⟩ := hcell (j / 4) (by omega)
    obtain ⟨g0, g1, g2, g3⟩ := hcell' (j / 4) (by omega)
    have hcase : j = 4 * (j / 4) ∨ j = 4 * (j / 4) + 1 ∨ j = 4 * (j / 4) + 2 ∨
        j = 4 * (j / 4) + 3 := by omega
    rcases hcase with e | e | e | e
    · rw [e, g0, h0]
    · rw [e, g1, h1]
    · rw [e, g2, h2]
    · rw [e, g3, h3]

theorem poly_basemul_blocks_witness :
    (List.replicate 128 (17 : Int)).length = 128 ∧
    (poly.mk (List.replicate 256 0)).coeffs.length = 256 ∧
    (poly.mk (List.replicate 256 2)).coeffs.length = 256 ∧
    (poly.mk (List.replicate 256 3)).coeffs.length = 256 ∧
    (∀ z ∈ List.replicate 128 (17 : Int), -32768 < z ∧ z ≤ 32767) ∧
    ∃ p, poly_basemul (fun a0 a1 b0 b1 z => (a0 * b0 + a1 * b1 * z, a0 * b1 + a1 * b0))
        (List.replicate 128 17) (poly.mk (List.replicate 256 0))
        (poly.mk (List.replicate 256 2)) (poly.mk (List.replicate 256 3)) = some p ∧
      p.coeffs.length = 256 ∧
      p.coeffs[0]? = some 108 ∧ p.coeffs[1]? = some 12 ∧
      p.coeffs[2]? = some (-96) ∧ p.coeffs[3]? = some 12 := by
  have hz : (List.replicate 128 (17 : Int)).length = 128 := List.length_replicate _ _
  have hr : (poly.mk (List.replicate 256 0)).coeffs.length = 256 := List.length_replicate _ _
  have ha : (poly.mk (List.replicate 256 2)).coeffs.length = 256 := List.length_replicate _ _
  have hb : (poly.mk (List.replicate 256 3)).coeffs.length = 256 := List.length_replicate _ _
  have hzr : ∀ z ∈ List.replicate 128 (17 : Int), -32768 < z ∧ z ≤ 32767 := by
    intro z hz
    rw [List.eq_of_mem_replicate hz]
    omega
  obtain ⟨⟨p, hrun, hlen, hcell⟩, -⟩ := poly_basemul_blocks
    (fun a0 a1 b0 b1 z => (a0 * b0 + a1 * b1 * z, a0 * b1 + a1 * b0)) _ _ _ _ hz hr ha hb hzr
  refine ⟨hz, hr, ha, hb, hzr, p, hrun, hlen, ?_⟩
  exact hcell 0 (by omega) 2 2 2 2 3 3 3 3 17
    (List.getElem?_replicate_of_lt (by omega)) (List.getElem?_replicate_of_lt (by omega))
    (List.getElem?_replicate_of_lt (by omega)) (List.getElem?_replicate_of_lt (by omega))
    (List.getElem?_replicate_of_lt (by omega)) (List.getElem?_replicate_of_lt (by omega))
    (List.getElem?_replicate_of_lt (by omega)) (List.getElem?_replicate_of_lt (by omega))
    (List.getElem?_replicate_of_lt (by omega))

/-- C18: totality on fixed-size inputs. For polynomials with 256 coefficients
and buffers of 384, 128 and 32 cells, each of `poly_tobytes`,
`poly_frombytes`, `poly_compress`, `poly_decompress`, `poly_frommsg` and
`poly_tomsg` returns a result (no read or write falls outside its array), for
any content of the cells; and the guarded divisions by `KYBER_Q` never take
their error branch. -/
theorem poly_serialisation_total (p r : poly) (b384 b128 b32 : List Nat)
    (hp : p.coeffs.length = 256) (hr : r.coeffs.length = 256)
    (h384 : b384.length = 384) (h128 : b128.length = 128) (h32 : b32.length = 32) :
    (∃ out, poly_tobytes b384 p = some out) ∧
    (∃ out, poly_frombytes r b384 = some out) ∧
    (∃ out, poly_compress b128 p = some out) ∧
    (∃ out, poly_decompress r b128 = some out) ∧
    (∃ out, poly_frommsg r b32 = some out) ∧
    (∃ out, poly_tomsg b32 p = some out) ∧
    (KYBER_Q = 3329 ∧ ∀ x : Nat, udiv x KYBER_Q = some (x / 3329)) ∧
    (∀ x : Int, sdiv x (KYBER_Q : Int) = some (Int.tdiv x 3329)) := by
  refine ⟨?_, ?_, ?_, ?_, ?_, ?_, ⟨rfl, udiv_q⟩, sdiv_q⟩
  · obtain ⟨out, hrun, -⟩ := poly_tobytes_cells b384 p hp h384
    exact ⟨_, hrun⟩
  · obtain ⟨out, hrun, -⟩ := poly_frombytes_cells r b384 hr h384
    exact ⟨_, hrun⟩
  · obtain ⟨out, hrun, -⟩ := poly_compress_cells b128 p hp h128
    exact ⟨_, hrun⟩
  · obtain ⟨out, hrun, -⟩ := poly_decompress_cells r b128 hr h128
    exact ⟨_, hrun⟩
  · obtain ⟨out, hrun, -⟩ := poly_frommsg_cells r b32 hr h32
    exact ⟨_, hrun⟩
  · obtain ⟨out, hrun, -⟩ := poly_tomsg_cells b32 p hp h32
    exact ⟨_, hrun⟩

theorem poly_serialisation_total_witness :
    (poly.mk (List.replicate 256 (-32768))).coeffs.length = 256 ∧
    (poly.mk (List.replicate 256 32767)).coeffs.length = 256 ∧
    (List.replicate 384 255).length = 384 ∧ (List.replicate 128 255).length = 128 ∧
    (List.replicate 32 255).length = 32 ∧
    (∃ out, poly_tobytes (List.replicate 384 255) (poly.mk (List.replicate 256 (-32768))) =
      some out) ∧
    (∃ out, poly_tomsg (List.replicate 32 255) (poly.mk (List.replicate 256 (-32768))) =
      some out) := by
  have hp : (poly.mk (List.replicate 256 (-32768))).coeffs.length = 256 :=
    List.length_replicate _ _
  have hr : (poly.mk (List.replicate 256 32767)).coeffs.length = 256 := List.length_replicate _ _
  have h384 : (List.replicate 384 255).length = 384 := List.length_replicate _ _
  have h128 : (List.replicate 128 255).length = 128 := List.length_replicate _ _
  have h32 : (List.replicate 32 255).length = 32 := List.length_replicate _ _
  have h := poly_serialisation_total _ _ _ _ _ hp hr h384 h128 h32
  exact ⟨hp, hr, h384, h128, h32, h.1, h.2.2.2.2.2.1⟩

theorem compress_decompress_nibble (v : Nat) (hv : v < 16) :
    (16 * ((((v * 3329 + 8) / 16 : Nat) : Int)).toNat + 1664) / 3329 % 16 = v := by
  rw [Int.toNat_ofNat]
  interval_cases v <;> rfl

/-- C19: decompress is a right inverse of compress. For a 128-byte array `b`
(every cell below 256), `poly_decompress` succeeds with every coefficient in
[0, q), and `poly_compress` applied to that polynomial succeeds and returns
exactly `b`, whatever the output buffers held before. -/
theorem poly_compress_decompress (b r : List Nat) (r0 : poly)
    (hb : b.length = 128) (hr : r.length = 128) (hr0 : r0.coeffs.length = 256)
    (hbyte : ∀ x ∈ b, x < 256) :
    ∃ p b' a', poly_decompress r0 b = some p ∧ (∀ c ∈ p.coeffs, 0 ≤ c ∧ c < 3329) ∧
      poly_compress r p = some (b', a') ∧ b' = b := by
  obtain ⟨p, hrun, hlen, hcell⟩ := poly_decompress_coeffs r0 b hr0 hb hbyte
  have hrange : ∀ c ∈ p.coeffs, 0 ≤ c ∧ c < 3329 := by
    intro c hc
    obtain ⟨j, hj⟩ := List.mem_iff_getElem?.mp hc
    have hj256 : j < 256 := by
      obtain ⟨hlt, -⟩ := List.getElem?_eq_some.mp hj
      omega
    obtain ⟨h0, h1⟩ := hcell (j / 2) (by omega)
    have hx := hbyte _ (getD_mem b (j / 2) 0 (by omega))
    rcases Nat.mod_two_eq_zero_or_one j with hpar | hpar
    · have ej : 2 * (j / 2) = j := by omega
      rw [ej, hj] at h0
      have := Option.some.inj h0
      omega
    · have ej : 2 * (j / 2) + 1 = j := by omega
      rw [ej, hj] at h1
      have := Option.some.inj h1
      omega
  obtain ⟨b', hrun', hlen', hcell'⟩ := poly_compress_canon r p hlen hr hrange
  refine ⟨p, b', _, hrun, hrange, hrun', ?_⟩
  apply List.ext_getElem?
  intro k
  by_cases hk : k < 128
  · obtain ⟨h0, h1⟩ := hcell k hk
    have hx := hbyte _ (getD_mem b k 0 (by omega))
    rw [hcell' k hk, getD_of_getElem? 0 h0, getD_of_getElem? 0 h1,
      compress_decompress_nibble _ (by omega), compress_decompress_nibble _ (by omega),
      getElem?_getD b k 0 (by omega)]
    exact congrArg some (by omega)
  · rw [List.getElem?_eq_none (by omega), List.getElem?_eq_none (by omega)]

theorem poly_compress_decompress_witness :
    (List.replicate 128 0xF8).length = 128 ∧ (List.replicate 128 0).length = 128 ∧
    (poly.mk (List.replicate 256 0)).coeffs.length = 256 ∧
    (∀ x ∈ List.replicate 128 0xF8, x < 256) ∧
    ∃ p b' a', poly_decompress (poly.mk (List.replicate 256 0)) (List.replicate 128 0xF8) = some p ∧
      (∀ c ∈ p.coeffs, 0 ≤ c ∧ c < 3329) ∧
      poly_compress (List.replicate 128 0) p = some (b', a') ∧ b' = List.replicate 128 0xF8 := by
  have hb : (List.replicate 128 0xF8).length = 128 := List.length_replicate _ _
  have hr : (List.replicate 128 0).length = 128 := List.length_replicate _ _
  have hr0 : (poly.mk (List.replicate 256 0)).coeffs.length = 256 := List.length_replicate _ _
  have hbyte : ∀ x ∈ List.replicate 128 0xF8, x < 256 := by
    intro x hx
    rw [List.eq_of_mem_replicate hx]
    omega
  exact ⟨hb, hr, hr0, hbyte, poly_compress_decompress _ _ _ hb hr hr0 hbyte⟩

/-- C20: byte-level round trip of the 12-bit encoding. For a 384-byte array `b`
(every cell below 256) whose 256 packed 12-bit fields are all below q,
`poly_frombytes` then `poly_tobytes` returns exactly `b`; for the array of 384
bytes 0xFF, whose fields are 4095, the same composite succeeds and returns a
different array. -/
theorem poly_tobytes_frombytes (b r : List Nat) (r0 : poly)
    (hb : b.length = 384) (hr : r.length = 384) (hr0 : r0.coeffs.length = 256)
    (hbyte : ∀ x ∈ b, x < 256)
    (hfield : ∀ i, i < 128 → ∀ b0 b1 b2 : Nat,
      b[3 * i]? = some b0 → b[3 * i + 1]? = some b1 → b[3 * i + 2]? = some b2 →
      b0 + 256 * (b1 % 16) < 3329 ∧ b1 / 16 + 16 * b2 < 3329) :
    (∃ p b' a', poly_frombytes r0 b = some p ∧ poly_tobytes r p = some (b', a') ∧ b' = b) ∧
    (∃ p b' a', poly_frombytes r0 (List.replicate 384 255) = some p ∧
      (∀ c ∈ p.coeffs, c = 4095) ∧
      poly_tobytes r p = some (b', a') ∧ b' ≠ List.replicate 384 255) := by
  constructor
  · obtain ⟨p, hrun, hlen, hcell⟩ := poly_frombytes_coeffs r0 b hr0 hb hbyte
    have hget : ∀ j, j < 384 → b.getD j 0 < 256 := fun j hj => hbyte _ (getD_mem b j 0 (by omega))
    have hf : ∀ i, i < 128 → b.getD (3 * i) 0 + 256 * (b.getD (3 * i + 1) 0 % 16) < 3329 ∧
        b.getD (3 * i + 1) 0 / 16 + 16 * b.getD (3 * i + 2) 0 < 3329 := fun i hi =>
      hfield i hi _ _ _ (getElem?_getD b _ 0 (by omega)) (getElem?_getD b _ 0 (by omega))
        (getElem?_getD b _ 0 (by omega))
    have hrange : ∀ c ∈ p.coeffs, 0 ≤ c ∧ c < 3329 := by
      intro c hc
      obtain ⟨j, hj⟩ := List.mem_iff_getElem?.mp hc
      have hj256 : j < 256 := by
        obtain ⟨hlt, -⟩ := List.getElem?_eq_some.mp hj
        omega
      obtain ⟨h0, h1⟩ := hcell (j / 2) (by omega)
      have hfj := hf (j / 2) (by omega)
      rcases Nat.mod_two_eq_zero_or_one j with hpar | hpar
      · have ej : 2 * (j / 2) = j := by omega
        rw [ej, hj] at h0
        have := Option.some.inj h0
        omega
      · have ej : 2 * (j / 2) + 1 = j := by omega
        rw [ej, hj] at h1
        have := Option.some.inj h1
        omega
    obtain ⟨b', hrun', hlen', hcell'⟩ := poly_tobytes_canon r p hlen hr
      (fun c hc => ⟨(hrange c hc).1, by have := (hrange c hc).2; omega⟩)
    refine ⟨p, b', _, hrun, hrun', ?_⟩
    apply List.ext_getElem?
    intro j
    by_cases hj : j < 384
    · obtain ⟨g0, g1, g2⟩ := hcell' (j / 3) (by omega)
      obtain ⟨h0, h1⟩ := hcell (j / 3) (by omega)
      have hfj := hf (j / 3) (by omega)
      have hA := hget (3 * (j / 3)) (by omega)
      have hB := hget (3 * (j / 3) + 1) (by omega)
      have hC := hget (3 * (j / 3) + 2) (by omega)
      rw [getD_of_getElem? 0 h0, csubq_of_lt_q _ (by omega), Int.toNat_ofNat] at g0 g1
      rw [getD_of_getElem? 0 h1, csubq_of_lt_q _ (by omega), Int.toNat_ofNat] at g1 g2
      have hcase : j = 3 * (j / 3) ∨ j = 3 * (j / 3) + 1 ∨ j = 3 * (j / 3) + 2 := by omega
      rcases hcase with e | e | e
      · rw [e, g0, getElem?_getD b _ 0 (by omega)]
        exact congrArg some (by omega)
      · rw [e, g1, getElem?_getD b _ 0 (by omega)]
        exact congrArg some (by omega)
      · rw [e, g2, getElem?_getD b _ 0 (by omega)]
        exact congrArg some (by omega)
    · rw [List.getElem?_eq_none (by omega), List.getElem?_eq_none (by omega)]
  · have hb255 : (List.replicate 384 255).length = 384 := List.length_replicate _ _
    have hbyte255 : ∀ x ∈ List.replicate 384 255, x < 256 := by
      intro x hx
      rw [List.eq_of_mem_replicate hx]
      omega
    have hget255 : ∀ j, j < 384 → (List.replicate 384 255).getD j 0 = 255 := fun j hj =>
      getD_of_getElem? 0 (List.getElem?_replicate_of_lt hj)
    obtain ⟨p, hrun, hlen, hcell⟩ := poly_frombytes_coeffs r0 _ hr0 hb255 hbyte255
    have hval : ∀ c ∈ p.coeffs, c = 4095 := by
      intro c hc
      obtain ⟨j, hj⟩ := List.mem_iff_getElem?.mp hc
      have hj256 : j < 256 := by
        obtain ⟨hlt, -⟩ := List.getElem?_eq_some.mp hj
        omega
      obtain ⟨h0, h1⟩ := hcell (j / 2) (by omega)
      rw [hget255 _ (by omega), hget255 _ (by omega)] at h0
      rw [hget255 _ (by omega), hget255 _ (by omega)] at h1
      rcases Nat.mod_two_eq_zero_or_one j with hpar | hpar
      · have ej : 2 * (j / 2) = j := by omega
        rw [ej, hj] at h0
        exact Option.some.inj h0
      · have ej : 2 * (j / 2) + 1 = j := by omega
        rw [ej, hj] at h1
        exact Option.some.inj h1
    obtain ⟨b', hrun', hlen', hcell'⟩ := poly_tobytes_canon r p hlen hr
      (fun c hc => by rw [hval c hc]; omega)
    refine ⟨p, b', _, hrun, hval, hrun', ?_⟩
    intro hb'
    have h := (hcell' 0 (by omega)).1
    rw [hval _ (getD_mem p.coeffs (2 * 0) 0 (by omega)), hb',
      List.getElem?_replicate_of_lt (by omega)] at h
    revert h
    decide

theorem poly_tobytes_frombytes_witness :
    (List.replicate 384 0x11).length = 384 ∧ (List.replicate 384 0).length = 384 ∧
    (poly.mk (List.replicate 256 0)).coeffs.length = 256 ∧
    (∀ x ∈ List.replicate 384 0x11, x < 256) ∧
    ∃ p b' a', poly_frombytes (poly.mk (List.replicate 256 0)) (List.replicate 384 0x11) = some p ∧
      poly_tobytes (List.replicate 384 0) p = some (b', a') ∧ b' = List.replicate 384 0x11 := by
  have hb : (List.replicate 384 0x11).length = 384 := List.length_replicate _ _
  have hr : (List.replicate 384 0).length = 384 := List.length_replicate _ _
  have hr0 : (poly.mk (List.replicate 256 0)).coeffs.length = 256 := List.length_replicate _ _
  have hbyte : ∀ x ∈ List.replicate 384 0x11, x < 256 := by
    intro x hx
    rw [List.eq_of_mem_replicate hx]
    omega
  have hfield : ∀ i, i < 128 → ∀ b0 b1 b2 : Nat,
      (List.replicate 384 0x11)[3 * i]? = some b0 →
      (List.replicate 384 0x11)[3 * i + 1]? = some b1 →
      (List.replicate 384 0x11)[3 * i + 2]? = some b2 →
      b0 + 256 * (b1 % 16) < 3329 ∧ b1 / 16 + 16 * b2 < 3329 := by
    intro i hi b0 b1 b2 h0 h1 h2
    rw [List.eq_of_mem_replicate (mem_of_getElem?_eq h0),
      List.eq_of_mem_replicate (mem_of_getElem?_eq h1),
      List.eq_of_mem_replicate (mem_of_getElem?_eq h2)]
    omega
  exact ⟨hb, hr, hr0, hbyte, (poly_tobytes_frombytes _ _ _ hb hr hr0 hbyte hfield).1⟩

end Kyber
